import Mathlib

/-!
The debug hook of suplog (`hooks/debug/hook.go`)

A shallow embedding of the enrichment hook of `suplog`, of the Go standard
library functions it calls and of the stack resolver it is built on, followed
by theorems about `limitPath`, `Fire`, `Levels`, `NewHook` and `GetCaller`.

Conventions of the embedding

* A Go `string` is a Lean `String`; the library functions work on its list of
  characters (`String.data`).  Both separators used by the hook (`/` and `.`)
  are ASCII, so splitting the UTF-8 bytes and splitting the characters agree.
* Go `int` is `Int`.  No arithmetic of the hook can overflow: the only
  subtraction is `len(pathParts)-n` with `0 < n < len(pathParts)`.
* The target platform is Unix: `filepath.Separator` is `/`, there are no
  volume names and `filepath.FromSlash` is the identity.
* A Go map is a function from keys to optional values, and a map variable is
  an `Option` of such a function, `none` being the `nil` map.  Assigning into
  the `nil` map panics, as in Go.
* Run-time panics are explicit results, never exceptions of Lean.
-/

/-! ## Package `strings` -/

namespace strings

/-- Scanning loop of `strings.Split(s, sep)` for a one-character separator.
`cur` is the text read since the last separator: at a separator the current
piece `s[:m]` is emitted and the scan goes on behind it, at the end of the
input the rest is the last piece. -/
def splitLoop (sep : Char) : List Char → List Char → List (List Char)
  | [], cur => [cur]
  | c :: cs, cur => if c = sep then cur :: splitLoop sep cs [] else splitLoop sep cs (cur ++ [c])

/-- Model of `strings.Split(s, sep)` for a separator of one character: the pieces of `s`
between the occurrences of `sep`; a string without separator, also the empty
one, gives the one-element list holding `s`. -/
def Split (s : List Char) (sep : Char) : List (List Char) :=
  splitLoop sep s []

/-- Model of `strings.Join(elems, sep)`: no element gives the empty string, one element
gives itself, otherwise the elements are concatenated with `sep` between
neighbours. -/
def Join : List (List Char) → List Char → List Char
  | [], _ => []
  | [e], _ => e
  | e :: e2 :: es, sep => e ++ sep ++ Join (e2 :: es) sep

end strings

/-! ## Package `path/filepath` (Unix) -/

namespace filepath

/-- The constant `filepath.Separator` on Unix. -/
def Separator : Char := '/'

/-- The test `os.IsPathSeparator(c)` on Unix: `PathSeparator == c`. -/
def IsPathSeparator (c : Char) : Bool := c == Separator

/-- Inner loop of the default case of `Clean`,
`for ; r < n && !os.IsPathSeparator(path[r]); r++ { out.append(path[r]) }`:
returns the unread input and the buffer. -/
def copyElement : List Char → List Char → List Char × List Char
  | [], out => ([], out)
  | c :: rest, out =>
    if IsPathSeparator c then (c :: rest, out) else copyElement rest (out ++ [c])

/-- Backtracking loop of the `..` case of `Clean`,
`for out.w > dotdot && !os.IsPathSeparator(out.index(out.w)) { out.w-- }`,
as a function of the write index `w`; `buf` is the buffer as it was when the
case was entered, so `buf[w]` is the byte `out.index(w)` reads. -/
def backtrack (buf : List Char) (dotdot : Nat) : Nat → Nat
  | 0 => 0
  | w + 1 =>
    if dotdot < w + 1 ∧ IsPathSeparator (buf.getD (w + 1) ' ') = false then
      backtrack buf dotdot w
    else w + 1

/-- Main loop `for r < n { switch ... }` of `filepath.Clean`.  The second
argument is the unread input `path[r:]`, `out` is the written part
`buf[:out.w]` of the lazy buffer, `dotdot` the index where `..` must stop.
Every turn reads at least one byte, so the fuel `len(path)` given by `Clean`
is never used up. -/
def cleanLoop (rooted : Bool) : Nat → List Char → List Char → Nat → List Char
  | 0, _, out, _ => out
  | fuel + 1, path, out, dotdot =>
    match path with
    | [] => out
    | c :: rest =>
      if IsPathSeparator c then
        -- empty path element
        cleanLoop rooted fuel rest out dotdot
      else if c = '.' ∧ (rest = [] ∨ (rest.head?.map IsPathSeparator) = some true) then
        -- . element
        cleanLoop rooted fuel rest out dotdot
      else if c = '.' ∧ rest.head? = some '.' ∧
          (rest.tail = [] ∨ (rest.tail.head?.map IsPathSeparator) = some true) then
        -- .. element: remove to last separator
        if dotdot < out.length then
          -- can backtrack
          cleanLoop rooted fuel rest.tail
            (out.take (backtrack out dotdot (out.length - 1))) dotdot
        else if rooted = false then
          -- cannot backtrack, but not rooted, so append .. element.
          let out1 := if 0 < out.length then out ++ [Separator] else out
          let out2 := out1 ++ ['.', '.']
          cleanLoop rooted fuel rest.tail out2 out2.length
        else
          cleanLoop rooted fuel rest.tail out dotdot
      else
        -- real path element: add slash if needed, copy element
        let out1 :=
          if (rooted = true ∧ out.length ≠ 1) ∨ (rooted = false ∧ out.length ≠ 0) then
            out ++ [Separator]
          else out
        let p := copyElement (c :: rest) out1
        cleanLoop rooted fuel p.1 p.2 dotdot

/-- Model of `filepath.Clean(path)` on Unix (no volume name, `FromSlash` the identity).
The lazy buffer of the library is an allocation device; it is modelled by the
bytes written so far. -/
def Clean (path : List Char) : List Char :=
  match path with
  | [] => ['.']
  | c :: rest =>
    let rooted := IsPathSeparator c
    let out :=
      if rooted then cleanLoop true (c :: rest).length rest [Separator] 1
      else cleanLoop false (c :: rest).length (c :: rest) [] 0
    -- Turn empty string into "."
    if out.length = 0 then ['.'] else out

/-- Model of `filepath.Join(elem...)` on Unix: the elements from the first non-empty one
on are joined with the separator and cleaned; when every element is empty the
result is the empty string. -/
def Join : List (List Char) → List Char
  | [] => []
  | e :: es => if e ≠ [] then Clean (strings.Join (e :: es) [Separator]) else Join es

end filepath

/-! ## Package `fmt` -/

namespace fmt

/-- The verb `%d` of `fmt.Sprintf` applied to an `int`: the decimal digits, after a minus
sign when the number is negative. -/
def formatInt : Int → String
  | Int.ofNat n => String.mk (Nat.toDigits 10 n)
  | Int.negSucc n => String.mk ('-' :: Nat.toDigits 10 (n + 1))

end fmt

/-! ## Package `logrus`: the part of the record model the hook touches -/

namespace logrus

/-- The type `logrus.Level` is an unsigned integer. -/
abbrev Level := Nat

/-- The constant `logrus.DebugLevel`. -/
def DebugLevel : Level := 5

/-- The constant `logrus.TraceLevel`. -/
def TraceLevel : Level := 6

/-- A value of type `interface{}` stored in a record: a string, or any other
dynamic value, of which only the identity matters here. -/
inductive Value where
  | str (s : String)
  | other (tag : Nat)
  deriving DecidableEq, Repr

/-- The type `logrus.Fields`, a `map[string]interface{}` that is not `nil`. -/
abbrev Fields := String → Option Value

/-- The part of `logrus.Entry` relevant to hooks.  `Data = none` is the `nil` map
of an entry built without `logrus.NewEntry`. -/
structure Entry where
  Data : Option Fields
  Level : Level
  Message : String

/-- Run-time panics the statements of the hook can raise. -/
inductive PanicValue where
  | indexOutOfRange
  | assignToNilMap
  deriving DecidableEq, Repr

/-- The map assignment `e.Data[k] = v`: it panics on the `nil` map and otherwise
binds `k` to `v`, leaving every other key as it is. -/
def Entry.assign (e : Entry) (k : String) (v : Value) : Except PanicValue Entry :=
  match e.Data with
  | none => Except.error PanicValue.assignToNilMap
  | some m => Except.ok { e with Data := some (fun j => if j = k then some v else m j) }

/-- Lookup `e.Data[k]` with its presence flag; the `nil` map has no key. -/
def Entry.get (e : Entry) (k : String) : Option Value :=
  match e.Data with
  | none => none
  | some m => m k

end logrus

/-! ## Package `stackcache`: construction only -/

namespace stackcache

/-- The struct `runtime.Frame`, as far as the hook reads it. -/
structure Frame where
  Function : String
  File : String
  Line : Int
  deriving DecidableEq, Repr

/-- Modelled from the spec: the resolver `stackcache.StackCache`, whose source
is not part of `hook.go`.  It is constructed from a base search offset, a
caller-supplied extra offset and the owning module identifier (spec §4.1). -/
structure StackCache where
  baseOffset : Int
  extraOffset : Int
  module : String
  deriving DecidableEq, Repr

/-- Modelled from the spec: the constructor `stackcache.New(base, extra, module)`. -/
def New (baseOffset extraOffset : Int) (module : String) : StackCache :=
  { baseOffset := baseOffset, extraOffset := extraOffset, module := module }

/-- Modelled from the spec: the search loop of `GetCaller`, whose source is not
part of `hook.go`.  It is the bounded search of spec §4.1 and §9: frame after
frame is inspected outward from index `i`; the first frame that does not belong
to the owning module is returned; when the stack is exhausted, or when `window`
frames have been inspected without success, the zero-value frame is returned.
The stack is given by its frame at each depth, `none` beyond its end. -/
def scanFrames (own : Frame → Bool) (stack : Nat → Option Frame) : Nat → Nat → Frame
  | 0, _ => { Function := "", File := "", Line := 0 }
  | window + 1, i =>
    match stack i with
    | none => { Function := "", File := "", Line := 0 }
    | some f => if own f then scanFrames own stack window (i + 1) else f

/-- Modelled from the spec: the operation `GetCaller()` of the resolver (spec §4.1),
whose source is not part of `hook.go`.  The search starts `base + extra` frames
above the invocation point (at the invocation point when that sum is negative)
and inspects at most `window` frames.  The specification fixes neither the
size of the window nor how a frame is matched against the owning module, so
both are inputs: `belongs module f` tells whether frame `f` belongs to
`module`. -/
def GetCaller (s : StackCache) (window : Nat) (belongs : String → Frame → Bool)
    (stack : Nat → Option Frame) : Frame :=
  scanFrames (belongs s.module) stack window (s.baseOffset + s.extraOffset).toNat

end stackcache

/-! ## Package `debug` (`hooks/debug/hook.go`) -/

namespace debug

open logrus stackcache

/-- The struct `HookOptions`. -/
structure HookOptions where
  AppVersion : String
  Levels : List Level
  PathSegmentsLimit : Int
  StackTraceOffset : Int
  deriving DecidableEq, Repr

/-- The process environment read by `os.Getenv`: an unset variable reads as
the empty string. -/
abbrev Env := String → Option String

/-- The call `os.Getenv(key)`. -/
def Getenv (env : Env) (key : String) : String := (env key).getD ""

/-- The function `checkHookOptions(opt)`; `none` is the `nil` pointer, whose replacement
`&HookOptions{}` has every field zero.  The environment is an explicit
input. -/
def checkHookOptions (env : Env) (opt : Option HookOptions) : HookOptions :=
  let opt : HookOptions :=
    match opt with
    | none => { AppVersion := "", Levels := [], PathSegmentsLimit := 0, StackTraceOffset := 0 }
    | some o => o
  let opt := if opt.AppVersion.length = 0 then
      { opt with AppVersion := Getenv env "APP_VERSION" } else opt
  let opt := if opt.Levels.length = 0 then
      { opt with Levels := [DebugLevel, TraceLevel] } else opt
  let opt := if opt.PathSegmentsLimit = 0 then
      { opt with PathSegmentsLimit := 3 } else opt
  opt

/-- The interface `RootLogger`; the hook stores it and never calls it, so a
logger is only a handle. -/
structure RootLogger where
  handle : Nat
  deriving DecidableEq, Repr

/-- The constant `defaultStackSearchOffset`. -/
def defaultStackSearchOffset : Int := 6

/-- The struct `hook`. -/
structure hook where
  opt : HookOptions
  logger : RootLogger
  stack : StackCache
  deriving DecidableEq, Repr

/-- The constructor `NewHook(logger, opt)`. -/
def NewHook (env : Env) (logger : RootLogger) (opt : Option HookOptions) : hook :=
  let opt := checkHookOptions env opt
  { opt := opt
    logger := logger
    stack := stackcache.New defaultStackSearchOffset opt.StackTraceOffset
      "github.com/InjectiveLabs/suplog" }

/-- The method `(h *hook) Levels()`. -/
def hook.Levels (h : hook) : List Level := h.opt.Levels

/-- The function `limitPath(path, n)`. -/
def limitPath (path : String) (n : Int) : String :=
  if n ≤ 0 then path
  else
    let pathParts := strings.Split path.data filepath.Separator
    let pathParts :=
      if (pathParts.length : Int) > n then
        pathParts.drop (((pathParts.length : Int) - n).toNat)
      else pathParts
    String.mk (filepath.Join pathParts)

/-- How a call of `Fire` ends: it returns its `error` result (`none` is `nil`),
or a statement panics. -/
inductive Outcome where
  | returned (err : Option String)
  | panicked (p : PanicValue)
  deriving DecidableEq, Repr

/-- State after a call of `Fire`: the receiver, the record, and how the call
ended. -/
structure FireResult where
  h : hook
  e : Entry
  outcome : Outcome

/-- The method `(h *hook) Fire(e)`.  `caller` is the frame `h.stack.GetCaller()` returned.
A panicking statement ends the call and leaves the record as the statements
before it made it. -/
def hook.Fire (h : hook) (caller : Frame) (e : Entry) : FireResult :=
  let s1 : Except PanicValue Entry :=
    if 0 < caller.Function.length then
      let parts := strings.Split caller.Function.data '/'
      match parts[parts.length - 1]? with
      | none => Except.error PanicValue.indexOutOfRange
      | some last =>
        let nameParts := strings.Split last '.'
        match nameParts[nameParts.length - 1]? with
        | none => Except.error PanicValue.indexOutOfRange
        | some name => e.assign "fn" (Value.str (String.mk name))
    else Except.ok e
  match s1 with
  | Except.error p => { h := h, e := e, outcome := Outcome.panicked p }
  | Except.ok e1 =>
    let callerFile := limitPath caller.File h.opt.PathSegmentsLimit
    match e1.assign "src" (Value.str (callerFile ++ ":" ++ fmt.formatInt caller.Line)) with
    | Except.error p => { h := h, e := e1, outcome := Outcome.panicked p }
    | Except.ok e2 =>
      if 0 < h.opt.AppVersion.length then
        match e2.assign "ver" (Value.str h.opt.AppVersion) with
        | Except.error p => { h := h, e := e2, outcome := Outcome.panicked p }
        | Except.ok e3 => { h := h, e := e3, outcome := Outcome.returned none }
      else { h := h, e := e2, outcome := Outcome.returned none }

/-! ## Words of the specification -/

/-- The text of `s` behind its last `c`, and `s` itself when `c` does not occur
in it: what is left when everything up to and including the last `c` is
removed. -/
def afterLast (c : Char) (s : List Char) : List Char :=
  (s.reverse.takeWhile (fun x => x != c)).reverse

/-- The segments of a path: its pieces between the path separators. -/
def segments (path : String) : List (List Char) :=
  strings.Split path.data filepath.Separator

/-- The trailing `n` segments of a path (all of them when there are fewer). -/
def trailingSegments (path : String) (n : Int) : List (List Char) :=
  (segments path).drop ((segments path).length - n.toNat)

/-- A path segment that `filepath.Clean` copies as it is: not empty, not `.`
and not `..`. -/
def plainSegment (seg : List Char) : Bool :=
  seg != [] && seg != ['.'] && seg != ['.', '.']

/-! ## Data of the scenarios of the specification -/

/-- An environment in which no variable is set. -/
def noEnv : Env := fun _ => none

/-- Options of the scenarios: three path segments, a given version, default levels. -/
def scenarioOptions (version : String) : HookOptions :=
  { AppVersion := version, Levels := [], PathSegmentsLimit := 3, StackTraceOffset := 0 }

/-- The hook `NewHook` builds from the options of the scenarios. -/
def scenarioHook (version : String) : hook :=
  NewHook noEnv { handle := 0 } (some (scenarioOptions version))

/-- The resolved frame of the scenarios. -/
def scenarioFrame : Frame :=
  { Function := "github.com/acme/app.(*Worker).Run"
    File := "/home/user/src/acme/app/worker.go"
    Line := 42 }

/-- The zero-value frame. -/
def zeroFrame : Frame := { Function := "", File := "", Line := 0 }

/-- A record as `logrus.NewEntry` makes it: an empty map that is not `nil`. -/
def emptyRecord : Entry :=
  { Data := some (fun _ => none), Level := DebugLevel, Message := "started" }

/-- A record whose map holds the one key `k`. -/
def recordWith (k : String) (v : Value) : Entry :=
  { Data := some (fun j => if j = k then some v else none)
    Level := DebugLevel
    Message := "started" }

/-- The zero-value record `logrus.Entry{}`, whose map is `nil`. -/
def nilRecord : Entry := { Data := none, Level := 0, Message := "" }

end debug

/-! ## Measures and shapes used in the proofs about `filepath.Clean` -/

namespace filepath

/-- The buffer of `Clean` made ready for one more element: a separator is put
behind what is written, nothing when the buffer is empty. -/
def withSeparator (out : List Char) : List Char :=
  if out = [] then out else out ++ [Separator]

/-- Number of elements written to the buffer of `Clean` on a path that is not
rooted: none in the empty buffer, otherwise one more than there are
separators. -/
def elementCount (out : List Char) : Nat :=
  if out = [] then 0 else out.count Separator + 1

/-- Number of elements the unread input of `Clean` can still hold: one for
each separator, and one more when the input starts inside an element. -/
def elementBound : List Char → Nat
  | [] => 0
  | c :: rest =>
    if IsPathSeparator c then (c :: rest).count Separator
    else (c :: rest).count Separator + 1

/-- The element `..`. -/
def dotdot : List Char := ['.', '.']

/-- A cleaned path that is not rooted: `k` elements `..` followed by the
elements `plain`, joined by the separator. -/
def cleanForm (k : Nat) (plain : List (List Char)) : List Char :=
  strings.Join (List.replicate k dotdot ++ plain) [Separator]

/-- Every element of the list is plain (not empty, not `.`, not `..`) and free of
separators. -/
def plainElements (plain : List (List Char)) : Prop :=
  ∀ seg ∈ plain, debug.plainSegment seg = true ∧ Separator ∉ seg

end filepath

/-! ## Lemmas on `strings.Split` and `strings.Join` -/

namespace strings

theorem splitLoop_nil (sep : Char) (cur : List Char) : splitLoop sep [] cur = [cur] := rfl

theorem splitLoop_cons (sep c : Char) (cs cur : List Char) :
    splitLoop sep (c :: cs) cur =
      if c = sep then cur :: splitLoop sep cs [] else splitLoop sep cs (cur ++ [c]) := rfl

theorem splitLoop_ne_nil (sep : Char) (s cur : List Char) : splitLoop sep s cur ≠ [] := by
  induction s generalizing cur with
  | nil => simp [splitLoop]
  | cons c cs ih =>
    unfold splitLoop
    split
    · simp
    · exact ih _

theorem Split_ne_nil (s : List Char) (sep : Char) : Split s sep ≠ [] :=
  splitLoop_ne_nil sep s []

theorem Split_length_pos (s : List Char) (sep : Char) : 0 < (Split s sep).length :=
  List.length_pos.mpr (Split_ne_nil s sep)

theorem Join_cons (e : List Char) (l : List (List Char)) (sep : List Char) (hl : l ≠ []) :
    Join (e :: l) sep = e ++ sep ++ Join l sep := by
  cases l with
  | nil => exact absurd rfl hl
  | cons e2 es => rfl

theorem Join_splitLoop (sep : Char) (s cur : List Char) :
    Join (splitLoop sep s cur) [sep] = cur ++ s := by
  induction s generalizing cur with
  | nil => simp [splitLoop, Join]
  | cons c cs ih =>
    unfold splitLoop
    split
    · next h =>
      rw [Join_cons _ _ _ (splitLoop_ne_nil sep cs []), ih]
      simp [h]
    · rw [ih]
      simp

/-- Joining the pieces of `Split` with the separator gives the string back. -/
theorem Join_Split (s : List Char) (sep : Char) : Join (Split s sep) [sep] = s := by
  simpa [Split] using Join_splitLoop sep s []

theorem splitLoop_append (sep : Char) (e rest cur : List Char) (he : sep ∉ e) :
    splitLoop sep (e ++ rest) cur = splitLoop sep rest (cur ++ e) := by
  induction e generalizing cur with
  | nil => simp
  | cons c cs ih =>
    have hc : c ≠ sep := fun h => he (by simp [h])
    have hcs : sep ∉ cs := fun h => he (by simp [h])
    rw [List.cons_append, splitLoop_cons, if_neg hc, ih _ hcs]
    simp

theorem splitLoop_Join (sep : Char) (segs : List (List Char)) (cur : List Char)
    (hne : segs ≠ []) (hfree : ∀ seg ∈ segs, sep ∉ seg) :
    splitLoop sep (Join segs [sep]) cur = (cur ++ segs.head hne) :: segs.tail := by
  induction segs generalizing cur with
  | nil => exact absurd rfl hne
  | cons e es ih =>
    cases es with
    | nil =>
      have he : sep ∉ e := hfree e (by simp)
      have := splitLoop_append sep e [] cur he
      simp only [List.append_nil] at this
      simp [Join, this, splitLoop]
    | cons e2 es =>
      have he : sep ∉ e := hfree e (by simp)
      have hrest : ∀ seg ∈ e2 :: es, sep ∉ seg := fun seg hs => hfree seg (by simp [hs])
      rw [Join_cons _ _ _ (by simp), List.append_assoc, splitLoop_append sep e _ cur he]
      rw [List.singleton_append, splitLoop_cons, if_pos rfl, ih [] (by simp) hrest]
      simp

/-- Splitting a join of separator-free pieces gives the pieces back. -/
theorem Split_Join (sep : Char) (segs : List (List Char))
    (hne : segs ≠ []) (hfree : ∀ seg ∈ segs, sep ∉ seg) :
    Split (Join segs [sep]) sep = segs := by
  unfold Split
  rw [splitLoop_Join sep segs [] hne hfree]
  cases segs with
  | nil => exact absurd rfl hne
  | cons e es => simp

theorem splitLoop_free (sep : Char) (s cur : List Char) (hcur : sep ∉ cur) :
    ∀ seg ∈ splitLoop sep s cur, sep ∉ seg := by
  induction s generalizing cur with
  | nil => simpa [splitLoop] using hcur
  | cons c cs ih =>
    unfold splitLoop
    split
    · intro seg hseg
      rcases List.mem_cons.mp hseg with h | h
      · rw [h]; exact hcur
      · exact ih [] (by simp) seg h
    · next h =>
      refine ih _ ?_
      simp only [List.mem_append, List.mem_singleton, not_or]
      exact ⟨hcur, fun hh => h hh.symm⟩

/-- No piece returned by `Split` contains the separator. -/
theorem Split_free (s : List Char) (sep : Char) : ∀ seg ∈ Split s sep, sep ∉ seg :=
  splitLoop_free sep s [] (by simp)

end strings

/-! ## Lemmas on `filepath.Clean` and `filepath.Join` -/

namespace filepath

theorem cleanLoop_nil (rooted : Bool) (fuel : Nat) (out : List Char) (dotdot : Nat) :
    cleanLoop rooted fuel [] out dotdot = out := by
  cases fuel <;> rfl

theorem cleanLoop_succ_cons (rooted : Bool) (fuel : Nat) (c : Char) (rest out : List Char)
    (dotdot : Nat) :
    cleanLoop rooted (fuel + 1) (c :: rest) out dotdot =
      if IsPathSeparator c then
        cleanLoop rooted fuel rest out dotdot
      else if c = '.' ∧ (rest = [] ∨ (rest.head?.map IsPathSeparator) = some true) then
        cleanLoop rooted fuel rest out dotdot
      else if c = '.' ∧ rest.head? = some '.' ∧
          (rest.tail = [] ∨ (rest.tail.head?.map IsPathSeparator) = some true) then
        if dotdot < out.length then
          cleanLoop rooted fuel rest.tail
            (out.take (backtrack out dotdot (out.length - 1))) dotdot
        else if rooted = false then
          cleanLoop rooted fuel rest.tail
            ((if 0 < out.length then out ++ [Separator] else out) ++ ['.', '.'])
            ((if 0 < out.length then out ++ [Separator] else out) ++ ['.', '.']).length
        else
          cleanLoop rooted fuel rest.tail out dotdot
      else
        cleanLoop rooted fuel
          (copyElement (c :: rest)
            (if (rooted = true ∧ out.length ≠ 1) ∨ (rooted = false ∧ out.length ≠ 0) then
              out ++ [Separator] else out)).1
          (copyElement (c :: rest)
            (if (rooted = true ∧ out.length ≠ 1) ∨ (rooted = false ∧ out.length ≠ 0) then
              out ++ [Separator] else out)).2 dotdot := rfl

theorem IsPathSeparator_iff (c : Char) : IsPathSeparator c = true ↔ c = Separator := by
  simp [IsPathSeparator]

theorem copyElement_append (e rest out : List Char) (he : Separator ∉ e)
    (hrest : rest = [] ∨ ∃ t, rest = Separator :: t) :
    copyElement (e ++ rest) out = (rest, out ++ e) := by
  induction e generalizing out with
  | nil =>
    rcases hrest with h | ⟨t, h⟩
    · subst h; simp [copyElement]
    · subst h; simp [copyElement, IsPathSeparator]
  | cons c cs ih =>
    have hc : IsPathSeparator c = false := by
      cases hs : IsPathSeparator c with
      | false => rfl
      | true => exact absurd ((IsPathSeparator_iff c).mp hs) (fun h => he (by simp [h]))
    have hcs : Separator ∉ cs := fun h => he (by simp [h])
    rw [List.cons_append]
    unfold copyElement
    rw [hc, ih _ hcs]
    simp

/-- One turn of the loop of `Clean` at the start of a plain element copies the
element, behind a separator when the buffer is not empty. -/
theorem cleanLoop_plain_step (fuel : Nat) (e rest out : List Char) (dotdot : Nat)
    (hplain : debug.plainSegment e = true) (he : Separator ∉ e)
    (hrest : rest = [] ∨ ∃ t, rest = Separator :: t) :
    cleanLoop false (fuel + 1) (e ++ rest) out dotdot =
      cleanLoop false fuel rest ((if out = [] then out else out ++ [Separator]) ++ e) dotdot := by
  have hcopy := copyElement_append e rest (if out = [] then out else out ++ [Separator]) he hrest
  simp only [debug.plainSegment, Bool.and_eq_true, bne_iff_ne, ne_eq] at hplain
  obtain ⟨⟨h0, h1⟩, h2⟩ := hplain
  cases e with
  | nil => exact absurd rfl h0
  | cons c cs =>
    have hc : IsPathSeparator c = false := by
      cases hs : IsPathSeparator c with
      | false => rfl
      | true => exact absurd ((IsPathSeparator_iff c).mp hs) (fun h => he (by simp [h]))
    have c1 : ¬ (c = '.' ∧ (cs ++ rest = [] ∨
        ((cs ++ rest).head?.map IsPathSeparator) = some true)) := by
      rintro ⟨hdot, hor⟩
      cases cs with
      | nil => exact h1 (by rw [hdot])
      | cons d ds =>
        rcases hor with h | h
        · simp at h
        · simp only [List.cons_append, List.head?_cons, Option.map_some'] at h
          have hd : d = Separator := (IsPathSeparator_iff d).mp (Option.some.inj h)
          exact he (by simp [hd])
    have c2 : ¬ (c = '.' ∧ (cs ++ rest).head? = some '.' ∧
        ((cs ++ rest).tail = [] ∨ ((cs ++ rest).tail.head?.map IsPathSeparator) = some true)) := by
      rintro ⟨hdot, hhead, hor⟩
      cases cs with
      | nil => exact h1 (by rw [hdot])
      | cons d ds =>
        simp only [List.cons_append, List.head?_cons, Option.some.injEq] at hhead
        cases ds with
        | nil => exact h2 (by rw [hdot, hhead])
        | cons x xs =>
          rcases hor with h | h
          · simp at h
          · simp only [List.cons_append, List.tail_cons, List.head?_cons, Option.map_some'] at h
            have hx : x = Separator := (IsPathSeparator_iff x).mp (Option.some.inj h)
            exact he (by simp [hx])
    have hout : (if (false = true ∧ out.length ≠ 1) ∨ (false = false ∧ out.length ≠ 0) then
        out ++ [Separator] else out) = (if out = [] then out else out ++ [Separator]) := by
      cases out <;> simp
    rw [List.cons_append, cleanLoop_succ_cons, hc, if_neg Bool.false_ne_true, if_neg c1,
      if_neg c2, hout, ← List.cons_append, hcopy]

/-- On a join of plain, separator-free elements the loop of `Clean` appends the
join to the buffer, behind a separator when the buffer is not empty. -/
theorem cleanLoop_plain (segs : List (List Char)) (hne : segs ≠ [])
    (hplain : ∀ seg ∈ segs, debug.plainSegment seg = true)
    (hfree : ∀ seg ∈ segs, Separator ∉ seg) (fuel : Nat) (out : List Char) (dotdot : Nat)
    (hfuel : (strings.Join segs [Separator]).length ≤ fuel) :
    cleanLoop false fuel (strings.Join segs [Separator]) out dotdot =
      (if out = [] then out else out ++ [Separator]) ++ strings.Join segs [Separator] := by
  induction segs generalizing fuel out with
  | nil => exact absurd rfl hne
  | cons e es ih =>
    have hpe : debug.plainSegment e = true := hplain e (by simp)
    have hfe : Separator ∉ e := hfree e (by simp)
    have hene : e ≠ [] := by
      intro h
      rw [h] at hpe
      exact absurd hpe (by decide)
    have helen : 0 < e.length := List.length_pos.mpr hene
    cases es with
    | nil =>
      simp only [strings.Join] at hfuel ⊢
      obtain ⟨f, rfl⟩ : ∃ f, fuel = f + 1 := ⟨fuel - 1, by omega⟩
      have := cleanLoop_plain_step f e [] out dotdot hpe hfe (Or.inl rfl)
      rw [List.append_nil] at this
      rw [this, cleanLoop_nil]
    | cons e2 es =>
      have hJ : strings.Join (e :: e2 :: es) [Separator] =
          e ++ (Separator :: strings.Join (e2 :: es) [Separator]) := by
        rw [strings.Join_cons _ _ _ (by simp)]
        simp
      rw [hJ] at hfuel ⊢
      simp only [List.length_append, List.length_cons] at hfuel
      obtain ⟨f, rfl⟩ : ∃ f, fuel = f + 1 + 1 := ⟨fuel - 2, by omega⟩
      rw [cleanLoop_plain_step (f + 1) e _ out dotdot hpe hfe (Or.inr ⟨_, rfl⟩)]
      rw [cleanLoop_succ_cons, if_pos (by decide)]
      rw [ih (by simp) (fun seg hs => hplain seg (by simp [hs]))
        (fun seg hs => hfree seg (by simp [hs])) f _ (by omega)]
      have hne2 : (if out = [] then out else out ++ [Separator]) ++ e ≠ [] := by
        simp [hene]
      rw [if_neg hne2]
      simp

theorem Join_ne_nil_of_head (e : List Char) (es : List (List Char)) (sep : List Char)
    (he : e ≠ []) : strings.Join (e :: es) sep ≠ [] := by
  cases es with
  | nil => simpa [strings.Join] using he
  | cons e2 es => simp [strings.Join, he]

/-- The function `Clean` leaves a join of plain, separator-free elements as it is. -/
theorem Clean_plain (segs : List (List Char)) (hne : segs ≠ [])
    (hplain : ∀ seg ∈ segs, debug.plainSegment seg = true)
    (hfree : ∀ seg ∈ segs, Separator ∉ seg) :
    Clean (strings.Join segs [Separator]) = strings.Join segs [Separator] := by
  have hloop := fun fuel h => cleanLoop_plain segs hne hplain hfree fuel [] 0 h
  cases segs with
  | nil => exact absurd rfl hne
  | cons e es =>
    have hpe : debug.plainSegment e = true := hplain e (by simp)
    have hfe : Separator ∉ e := hfree e (by simp)
    have hene : e ≠ [] := by
      intro h
      rw [h] at hpe
      exact absurd hpe (by decide)
    have hJne := Join_ne_nil_of_head e es [Separator] hene
    have hhead : ∃ c t, strings.Join (e :: es) [Separator] = c :: t ∧ IsPathSeparator c = false := by
      cases e with
      | nil => exact absurd rfl hene
      | cons c cs =>
        have hc : IsPathSeparator c = false := by
          cases hs : IsPathSeparator c with
          | false => rfl
          | true => exact absurd ((IsPathSeparator_iff c).mp hs) (fun h => hfe (by simp [h]))
        cases es with
        | nil => exact ⟨c, cs, rfl, hc⟩
        | cons e2 es => exact ⟨c, cs ++ [Separator] ++ strings.Join (e2 :: es) [Separator], rfl, hc⟩
    obtain ⟨c, t, hct, hc⟩ := hhead
    have h1 := hloop (c :: t).length (by rw [hct])
    rw [hct] at h1 ⊢
    simp only [Clean, hc, Bool.false_eq_true, if_false]
    rw [h1]
    simp

/-- The function `Join` of `filepath` on plain, separator-free elements is the join with the
separator. -/
theorem Join_plain (segs : List (List Char)) (hne : segs ≠ [])
    (hplain : ∀ seg ∈ segs, debug.plainSegment seg = true)
    (hfree : ∀ seg ∈ segs, Separator ∉ seg) :
    Join segs = strings.Join segs [Separator] := by
  cases segs with
  | nil => exact absurd rfl hne
  | cons e es =>
    have hpe : debug.plainSegment e = true := hplain e (by simp)
    have hene : e ≠ [] := by
      intro h
      rw [h] at hpe
      exact absurd hpe (by decide)
    unfold Join
    rw [if_pos hene]
    exact Clean_plain (e :: es) hne hplain hfree

end filepath

/-! ## The path trimming utility `limitPath` -/

namespace debug

theorem limitPath_of_pos (path : String) (n : Int) (hn : 0 < n) :
    limitPath path n = String.mk (filepath.Join (trailingSegments path n)) := by
  have hn0 : ¬ n ≤ 0 := not_le.mpr hn
  simp only [limitPath, if_neg hn0, trailingSegments, segments]
  by_cases hlen : ((strings.Split path.data filepath.Separator).length : Int) > n
  · rw [if_pos hlen]
    have hd : (((strings.Split path.data filepath.Separator).length : Int) - n).toNat =
        (strings.Split path.data filepath.Separator).length - n.toNat := by omega
    rw [hd]
  · rw [if_neg hlen]
    have h0 : (strings.Split path.data filepath.Separator).length - n.toNat = 0 := by omega
    rw [h0, List.drop_zero]

theorem trailingSegments_length (path : String) (n : Int) (hn : 0 < n)
    (hlen : n < ((segments path).length : Int)) :
    ((trailingSegments path n).length : Int) = n := by
  simp only [trailingSegments, List.length_drop]
  omega

theorem trailingSegments_free (path : String) (n : Int) :
    ∀ seg ∈ trailingSegments path n, filepath.Separator ∉ seg := fun seg hseg =>
  strings.Split_free path.data filepath.Separator seg (List.mem_of_mem_drop hseg)

/-- C1 (amended): for every limit `n > 0` and every path with more than `n`
segments, `limitPath path n` is `filepath.Join` of the trailing `n` segments
of the path; when none of these `n` segments is empty, `.` or `..`, the result
has exactly `n` segments and equals the trailing `n` segments joined by the
separator. -/
theorem limitPath_trailing_segments (path : String) (n : Int) (hn : 0 < n)
    (hlen : n < ((segments path).length : Int)) :
    ((trailingSegments path n).length : Int) = n ∧
    limitPath path n = String.mk (filepath.Join (trailingSegments path n)) ∧
    ((∀ seg ∈ trailingSegments path n, plainSegment seg = true) →
      ((segments (limitPath path n)).length : Int) = n ∧
      limitPath path n =
        String.mk (strings.Join (trailingSegments path n) [filepath.Separator])) := by
  have hl := trailingSegments_length path n hn hlen
  refine ⟨hl, limitPath_of_pos path n hn, fun hplain => ?_⟩
  have hne : trailingSegments path n ≠ [] := by
    intro h
    rw [h] at hl
    simp at hl
    omega
  have hjoin := filepath.Join_plain _ hne hplain (trailingSegments_free path n)
  have heq : limitPath path n =
      String.mk (strings.Join (trailingSegments path n) [filepath.Separator]) := by
    rw [limitPath_of_pos path n hn, hjoin]
  refine ⟨?_, heq⟩
  rw [heq]
  simp only [segments]
  rw [strings.Split_Join _ _ hne (trailingSegments_free path n)]
  exact hl

/-- C1, an instance: the caller file of the scenario of the specification,
trimmed to three segments. -/
theorem limitPath_trailing_segments_witness :
    (0 : Int) < 3 ∧ (3 : Int) < ((segments "/home/user/src/acme/app/worker.go").length : Int) ∧
    (∀ seg ∈ trailingSegments "/home/user/src/acme/app/worker.go" 3, plainSegment seg = true) ∧
    ((segments (limitPath "/home/user/src/acme/app/worker.go" 3)).length : Int) = 3 ∧
    limitPath "/home/user/src/acme/app/worker.go" 3 =
      String.mk (strings.Join (trailingSegments "/home/user/src/acme/app/worker.go" 3)
        [filepath.Separator]) :=
  ⟨by decide, by decide, by decide,
    (limitPath_trailing_segments "/home/user/src/acme/app/worker.go" 3 (by decide)
      (by decide)).2.2 (by decide)⟩

/-- C1 as stated fails: `a/b/` has three segments `a`, `b` and the empty one;
trimmed to two, the result is `b`, which has one segment and is not the join
`b/` of the trailing two segments. -/
theorem limitPath_trailing_separator_counterexample :
    (0 : Int) < 2 ∧ (2 : Int) < ((segments "a/b/").length : Int) ∧
    limitPath "a/b/" 2 = "b" ∧
    ¬ (((segments (limitPath "a/b/" 2)).length : Int) = 2 ∧
      limitPath "a/b/" 2 =
        String.mk (strings.Join (trailingSegments "a/b/" 2) [filepath.Separator])) := by
  decide

/-- C2 (amended): for every limit `n > 0` and every path with at most `n`
segments, `limitPath path n` is `filepath.Join` of the segments of the path;
it is the path itself when no segment is empty, `.` or `..`. -/
theorem limitPath_short_path (path : String) (n : Int) (hn : 0 < n)
    (hlen : ((segments path).length : Int) ≤ n) :
    limitPath path n = String.mk (filepath.Join (segments path)) ∧
    ((∀ seg ∈ segments path, plainSegment seg = true) → limitPath path n = path) := by
  have h0 : (segments path).length - n.toNat = 0 := by omega
  have hall : trailingSegments path n = segments path := by
    simp only [trailingSegments, h0, List.drop_zero]
  have h1 : limitPath path n = String.mk (filepath.Join (segments path)) := by
    rw [limitPath_of_pos path n hn, hall]
  refine ⟨h1, fun hplain => ?_⟩
  have hj := filepath.Join_plain (segments path) (strings.Split_ne_nil _ _) hplain
    (strings.Split_free path.data filepath.Separator)
  rw [h1, hj]
  simp only [segments]
  rw [strings.Join_Split]

/-- C2, an instance: a relative path of three plain segments under limit 3. -/
theorem limitPath_short_path_witness :
    (0 : Int) < 3 ∧ ((segments "acme/app/worker.go").length : Int) ≤ 3 ∧
    (∀ seg ∈ segments "acme/app/worker.go", plainSegment seg = true) ∧
    limitPath "acme/app/worker.go" 3 = "acme/app/worker.go" :=
  ⟨by decide, by decide, by decide,
    (limitPath_short_path "acme/app/worker.go" 3 (by decide) (by decide)).2 (by decide)⟩

/-- C2 as stated fails: `/a/b` has the three segments empty, `a` and `b`, and
under limit 3 `limitPath` returns `a/b`, without the leading separator. -/
theorem limitPath_absolute_short_path_counterexample :
    (0 : Int) < 3 ∧ ((segments "/a/b").length : Int) ≤ 3 ∧
    limitPath "/a/b" 3 = "a/b" ∧ limitPath "/a/b" 3 ≠ "/a/b" := by
  decide

/-- C3: for every path and every limit `n ≤ 0`, `limitPath path n` is exactly the
path. -/
theorem limitPath_nonpositive (path : String) (n : Int) (hn : n ≤ 0) :
    limitPath path n = path := by
  simp only [limitPath, if_pos hn]

/-- C3, instances: limit 0 and a negative limit leave a path with empty, `.` and
`..` segments as it is. -/
theorem limitPath_nonpositive_witness :
    ((0 : Int) ≤ 0 ∧ limitPath "/a//b/./../c/" 0 = "/a//b/./../c/") ∧
    ((-2 : Int) ≤ 0 ∧ limitPath "/a//b/./../c/" (-2) = "/a//b/./../c/") :=
  ⟨⟨by decide, limitPath_nonpositive "/a//b/./../c/" 0 (by decide)⟩,
    ⟨by decide, limitPath_nonpositive "/a//b/./../c/" (-2) (by decide)⟩⟩

end debug

/-! ## The last piece of a split -/

namespace debug

theorem takeWhile_append_stop (p : Char → Bool) (l r : List Char) (x : Char) (hx : p x = false) :
    (l ++ x :: r).takeWhile p = l.takeWhile p := by
  induction l with
  | nil => simp [List.takeWhile, hx]
  | cons a as ih =>
    simp only [List.cons_append, List.takeWhile]
    cases p a with
    | true => simp [ih]
    | false => rfl

/-- What `afterLast` removes ends with the last `c`: behind a `c`, only the text
behind it counts. -/
theorem afterLast_append_cons (c : Char) (pre t : List Char) :
    afterLast c (pre ++ c :: t) = afterLast c t := by
  unfold afterLast
  have h : (pre ++ c :: t).reverse = t.reverse ++ c :: pre.reverse := by simp
  rw [h, takeWhile_append_stop _ _ _ _ (by simp)]

/-- A string without `c` is its own `afterLast`. -/
theorem afterLast_of_not_mem (c : Char) (s : List Char) (hs : c ∉ s) : afterLast c s = s := by
  unfold afterLast
  have h : s.reverse.takeWhile (fun x => x != c) = s.reverse := by
    rw [List.takeWhile_eq_self_iff]
    intro x hx
    have hxs : x ∈ s := List.mem_reverse.mp hx
    simp only [bne_iff_ne, ne_eq]
    intro hxc
    exact hs (hxc ▸ hxs)
  rw [h, List.reverse_reverse]

/-- The result of `afterLast` does not contain `c`. -/
theorem afterLast_free (c : Char) (s : List Char) : c ∉ afterLast c s := by
  unfold afterLast
  intro h
  have h2 := List.mem_takeWhile_imp (List.mem_reverse.mp h)
  simp at h2

theorem splitLoop_getLast? (sep : Char) (s cur : List Char) (hcur : sep ∉ cur) :
    (strings.splitLoop sep s cur).getLast? = some (afterLast sep (cur ++ s)) := by
  induction s generalizing cur with
  | nil =>
    rw [strings.splitLoop_nil, List.append_nil, afterLast_of_not_mem sep cur hcur]
    rfl
  | cons c cs ih =>
    rw [strings.splitLoop_cons]
    split
    · next h =>
      rw [List.getLast?_cons, ih [] (by simp), h, afterLast_append_cons]
      rfl
    · next h =>
      have hc : sep ∉ cur ++ [c] := by
        simp only [List.mem_append, List.mem_singleton, not_or]
        exact ⟨hcur, fun hh => h hh.symm⟩
      rw [ih _ hc]
      simp

/-- The element `parts[len(parts)-1]` of `parts := strings.Split(s, sep)` exists and is the
text of `s` behind its last separator. -/
theorem Split_last (s : List Char) (sep : Char) :
    (strings.Split s sep)[(strings.Split s sep).length - 1]? = some (afterLast sep s) := by
  rw [← List.getLast?_eq_getElem?]
  simpa [strings.Split] using splitLoop_getLast? sep s [] (by simp)

end debug

/-! ## The enrichment hook: `Fire` -/

namespace debug

open logrus stackcache

/-- On a record whose field mapping is not `nil`, `Fire` returns `nil` and
rebinds at most the keys `fn`, `src` and `ver`. -/
theorem Fire_of_map (h : hook) (caller : Frame) (e : Entry) (m : Fields)
    (hm : e.Data = some m) :
    h.Fire caller e =
      { h := h
        e := { e with Data := some (fun j =>
          if j = "ver" ∧ 0 < h.opt.AppVersion.length then some (Value.str h.opt.AppVersion)
          else if j = "src" then
            some (Value.str (limitPath caller.File h.opt.PathSegmentsLimit ++ ":" ++
              fmt.formatInt caller.Line))
          else if j = "fn" ∧ 0 < caller.Function.length then
            some (Value.str (String.mk (afterLast '.' (afterLast '/' caller.Function.data))))
          else m j) }
        outcome := Outcome.returned none } := by
  have hp := Split_last caller.Function.data '/'
  have hq := Split_last (afterLast '/' caller.Function.data) '.'
  obtain ⟨d, lv, msg⟩ := e
  simp only at hm
  subst hm
  by_cases hf : 0 < caller.Function.length <;> by_cases hv : 0 < h.opt.AppVersion.length
  · simp only [hook.Fire, hp, hq, Entry.assign, if_pos hf, if_pos hv]
    congr 3
    funext j
    split_ifs <;> simp_all
  · simp only [hook.Fire, hp, hq, Entry.assign, if_pos hf, if_neg hv]
    congr 3
    funext j
    split_ifs <;> simp_all
  · simp only [hook.Fire, hp, hq, Entry.assign, if_neg hf, if_pos hv]
    congr 3
    funext j
    split_ifs <;> simp_all
  · simp only [hook.Fire, hp, hq, Entry.assign, if_neg hf, if_neg hv]
    congr 3
    funext j
    split_ifs <;> simp_all

/-- On a record whose field mapping is `nil`, the first map assignment of `Fire`
panics and the record stays as it is. -/
theorem Fire_of_nil (h : hook) (caller : Frame) (e : Entry) (hm : e.Data = none) :
    h.Fire caller e =
      { h := h, e := e, outcome := Outcome.panicked PanicValue.assignToNilMap } := by
  have hp := Split_last caller.Function.data '/'
  have hq := Split_last (afterLast '/' caller.Function.data) '.'
  by_cases hf : 0 < caller.Function.length
  · simp only [hook.Fire, hp, hq, Entry.assign, if_pos hf, hm]
  · simp only [hook.Fire, hp, hq, Entry.assign, if_neg hf, hm]

end debug

/-! ## The enrichment hook: the record after `Fire` -/

namespace debug

open logrus stackcache

theorem length_pos_of_ne_empty (s : String) (hs : s ≠ "") : 0 < s.length := by
  obtain ⟨l⟩ := s
  cases l with
  | nil => exact absurd rfl hs
  | cons c cs => simp [String.length]

/-- C4: for every record with a usable field mapping, every configuration and
every resolved caller frame, `Fire` returns and the mapping then binds `src`
to `limitPath(frame.File, PathSegmentsLimit)`, a colon and the decimal
rendering of `frame.Line`, whatever the function identifier is. -/
theorem Fire_writes_src (h : hook) (caller : Frame) (e : Entry) (m : Fields)
    (hm : e.Data = some m) :
    (h.Fire caller e).outcome = Outcome.returned none ∧
    (h.Fire caller e).e.get "src" =
      some (Value.str (limitPath caller.File h.opt.PathSegmentsLimit ++ ":" ++
        fmt.formatInt caller.Line)) := by
  rw [Fire_of_map h caller e m hm]
  refine ⟨rfl, ?_⟩
  simp [Entry.get]

/-- C4, the scenario of the specification: limit 3, file
`/home/user/src/acme/app/worker.go`, line 42 give `src = acme/app/worker.go:42`;
the same frame without function identifier gives the same `src`. -/
theorem Fire_writes_src_witness :
    emptyRecord.Data = some (fun _ => none) ∧
    ((scenarioHook "").Fire scenarioFrame emptyRecord).e.get "src" =
      some (Value.str "acme/app/worker.go:42") ∧
    ((scenarioHook "").Fire { scenarioFrame with Function := "" } emptyRecord).e.get "src" =
      some (Value.str "acme/app/worker.go:42") :=
  ⟨rfl,
    ((Fire_writes_src (scenarioHook "") scenarioFrame emptyRecord _ rfl).2).trans (by decide),
    ((Fire_writes_src (scenarioHook "") { scenarioFrame with Function := "" } emptyRecord _
      rfl).2).trans (by decide)⟩

/-- C5: for every resolved frame with a non-empty function identifier (and every
record with a usable field mapping), the value `Fire` writes under `fn` is the
identifier with everything up to and including its last `/` removed and then
everything up to and including the last `.` of the remainder removed. -/
theorem Fire_fn_value (h : hook) (caller : Frame) (e : Entry) (m : Fields)
    (hm : e.Data = some m) (hfn : caller.Function ≠ "") :
    (h.Fire caller e).e.get "fn" =
      some (Value.str (String.mk (afterLast '.' (afterLast '/' caller.Function.data)))) := by
  have hlen := length_pos_of_ne_empty _ hfn
  rw [Fire_of_map h caller e m hm]
  simp [Entry.get, hlen]

/-- C5, the identifiers of the specification: `github.com/org/pkg.(*Type).Method`
gives `Method` and `github.com/acme/app.(*Worker).Run` gives `Run`. -/
theorem Fire_fn_value_witness :
    (emptyRecord.Data = some (fun _ => none) ∧
      "github.com/org/pkg.(*Type).Method" ≠ "" ∧
      ((scenarioHook "").Fire { scenarioFrame with Function := "github.com/org/pkg.(*Type).Method" }
        emptyRecord).e.get "fn" = some (Value.str "Method")) ∧
    (scenarioFrame.Function ≠ "" ∧
      ((scenarioHook "").Fire scenarioFrame emptyRecord).e.get "fn" = some (Value.str "Run")) :=
  ⟨⟨rfl, by decide,
      (Fire_fn_value (scenarioHook "")
        { scenarioFrame with Function := "github.com/org/pkg.(*Type).Method" } emptyRecord _ rfl
        (by decide)).trans (by decide)⟩,
    ⟨by decide,
      (Fire_fn_value (scenarioHook "") scenarioFrame emptyRecord _ rfl (by decide)).trans
        (by decide)⟩⟩

/-- C6 (amended): for every record with a usable field mapping and every
resolved frame, `Fire` returns and the mapping then contains `fn` if and only
if the function identifier is non-empty or the mapping contained `fn` before
the call; with an empty identifier the entry of `fn` is left as it was, so a
record without `fn` gets none. -/
theorem Fire_fn_presence (h : hook) (caller : Frame) (e : Entry) (m : Fields)
    (hm : e.Data = some m) :
    (h.Fire caller e).outcome = Outcome.returned none ∧
    ((((h.Fire caller e).e.get "fn").isSome = true) ↔
      (caller.Function ≠ "" ∨ (m "fn").isSome = true)) ∧
    (caller.Function = "" → (h.Fire caller e).e.get "fn" = m "fn") := by
  rw [Fire_of_map h caller e m hm]
  refine ⟨rfl, ?_, ?_⟩
  · by_cases hf : caller.Function = ""
    · simp [Entry.get, hf]
    · have hlen := length_pos_of_ne_empty _ hf
      simp [Entry.get, hf, hlen]
  · intro hf
    simp [Entry.get, hf]

/-- C6, instances: on a record without `fn`, the key is present after the call for
the frame of the scenario and absent for the zero-value frame. -/
theorem Fire_fn_presence_witness :
    emptyRecord.Data = some (fun _ => none) ∧
    (((scenarioHook "").Fire scenarioFrame emptyRecord).e.get "fn").isSome = true ∧
    ((scenarioHook "").Fire zeroFrame emptyRecord).e.get "fn" = none :=
  ⟨rfl,
    (Fire_fn_presence (scenarioHook "") scenarioFrame emptyRecord _ rfl).2.1.mpr
      (Or.inl (by decide)),
    (Fire_fn_presence (scenarioHook "") zeroFrame emptyRecord _ rfl).2.2 rfl⟩

/-- C6 as stated fails: a record that already holds `fn` still holds it after
`Fire`, although the zero-value frame has an empty function identifier. -/
theorem Fire_fn_presence_counterexample :
    zeroFrame.Function = "" ∧
    ((scenarioHook "").Fire zeroFrame (recordWith "fn" (Value.str "custom"))).e.get "fn" =
      some (Value.str "custom") ∧
    ¬ (((((scenarioHook "").Fire zeroFrame (recordWith "fn" (Value.str "custom"))).e.get
        "fn").isSome = true) ↔ zeroFrame.Function ≠ "") := by
  decide

/-- C7 (amended): for every record with a usable field mapping, `Fire` returns
and the mapping then contains `ver` if and only if the version of the hook is
non-empty or the mapping contained `ver` before the call; a non-empty version
is the value of `ver` verbatim, and with an empty version the entry of `ver`
is left as it was, so no empty string is written and a record without `ver`
gets none. -/
theorem Fire_ver_presence (h : hook) (caller : Frame) (e : Entry) (m : Fields)
    (hm : e.Data = some m) :
    (h.Fire caller e).outcome = Outcome.returned none ∧
    ((((h.Fire caller e).e.get "ver").isSome = true) ↔
      (h.opt.AppVersion ≠ "" ∨ (m "ver").isSome = true)) ∧
    (h.opt.AppVersion ≠ "" →
      (h.Fire caller e).e.get "ver" = some (Value.str h.opt.AppVersion)) ∧
    (h.opt.AppVersion = "" → (h.Fire caller e).e.get "ver" = m "ver") := by
  rw [Fire_of_map h caller e m hm]
  refine ⟨rfl, ?_, ?_, ?_⟩
  · by_cases hv : h.opt.AppVersion = ""
    · simp [Entry.get, hv]
    · have hlen := length_pos_of_ne_empty _ hv
      simp [Entry.get, hv, hlen]
  · intro hv
    have hlen := length_pos_of_ne_empty _ hv
    simp [Entry.get, hlen]
  · intro hv
    simp [Entry.get, hv]

/-- C7, the scenarios of the specification: version `v1.2.3` gives
`ver = v1.2.3`, the empty version gives no `ver` key. -/
theorem Fire_ver_presence_witness :
    emptyRecord.Data = some (fun _ => none) ∧
    ((scenarioHook "v1.2.3").opt.AppVersion ≠ "" ∧
      ((scenarioHook "v1.2.3").Fire scenarioFrame emptyRecord).e.get "ver" =
        some (Value.str "v1.2.3")) ∧
    ((scenarioHook "").opt.AppVersion = "" ∧
      ((scenarioHook "").Fire scenarioFrame emptyRecord).e.get "ver" = none) :=
  ⟨rfl,
    ⟨by decide,
      ((Fire_ver_presence (scenarioHook "v1.2.3") scenarioFrame emptyRecord _ rfl).2.2.1
        (by decide)).trans (by decide)⟩,
    ⟨by decide,
      (Fire_ver_presence (scenarioHook "") scenarioFrame emptyRecord _ rfl).2.2.2 (by decide)⟩⟩

/-- C7 as stated fails: a record that already holds `ver` still holds it, with
its old value, after `Fire` of a hook whose version is empty. -/
theorem Fire_ver_presence_counterexample :
    (scenarioHook "").opt.AppVersion = "" ∧
    ((scenarioHook "").Fire scenarioFrame (recordWith "ver" (Value.str "v0"))).e.get "ver" =
      some (Value.str "v0") ∧
    ¬ (((((scenarioHook "").Fire scenarioFrame (recordWith "ver" (Value.str "v0"))).e.get
        "ver").isSome = true) ↔ (scenarioHook "").opt.AppVersion ≠ "") := by
  decide

/-- C8: a hook built by `NewHook` returns from `Levels()` the configured list when
that is not empty, and the default `[DebugLevel, TraceLevel]` when the options
are `nil` or the configured list is empty. -/
theorem NewHook_Levels (env : Env) (logger : RootLogger) :
    (∀ opt : HookOptions, opt.Levels ≠ [] →
      (NewHook env logger (some opt)).Levels = opt.Levels) ∧
    (∀ opt : HookOptions, opt.Levels = [] →
      (NewHook env logger (some opt)).Levels = [DebugLevel, TraceLevel]) ∧
    (NewHook env logger none).Levels = [DebugLevel, TraceLevel] := by
  refine ⟨fun opt hl => ?_, fun opt hl => ?_, ?_⟩
  · have hlen : ¬ opt.Levels.length = 0 := fun h => hl (List.length_eq_zero.mp h)
    simp only [NewHook, hook.Levels, checkHookOptions]
    split_ifs <;> simp_all
  · have hlen : opt.Levels.length = 0 := by rw [hl]; rfl
    simp only [NewHook, hook.Levels, checkHookOptions]
    split_ifs <;> simp_all
  · simp only [NewHook, hook.Levels, checkHookOptions]
    split_ifs <;> simp_all

/-- C8, instances: a configured list of two levels comes back as it is; an empty
list and `nil` options give the default. -/
theorem NewHook_Levels_witness :
    ({ scenarioOptions "" with Levels := [2, 4] } : HookOptions).Levels ≠ [] ∧
    (NewHook noEnv { handle := 0 } (some { scenarioOptions "" with Levels := [2, 4] })).Levels =
      [2, 4] ∧
    (scenarioOptions "").Levels = [] ∧
    (NewHook noEnv { handle := 0 } (some (scenarioOptions ""))).Levels = [5, 6] ∧
    (NewHook noEnv { handle := 0 } none).Levels = [5, 6] :=
  ⟨by decide,
    (NewHook_Levels noEnv { handle := 0 }).1 { scenarioOptions "" with Levels := [2, 4] }
      (by decide),
    rfl,
    (NewHook_Levels noEnv { handle := 0 }).2.1 (scenarioOptions "") rfl,
    (NewHook_Levels noEnv { handle := 0 }).2.2⟩

/-- C9 (amended): for every record whose field mapping is not `nil`, every
configuration and every resolved frame, `Fire` completes and returns `nil`; no
index expression and no map assignment panics. -/
theorem Fire_returns_nil (h : hook) (caller : Frame) (e : Entry) (m : Fields)
    (hm : e.Data = some m) :
    (h.Fire caller e).outcome = Outcome.returned none := by
  rw [Fire_of_map h caller e m hm]

/-- C9, instances: the zero-value frame and the identifiers `/` and `.`. -/
theorem Fire_returns_nil_witness :
    emptyRecord.Data = some (fun _ => none) ∧
    ((scenarioHook "").Fire zeroFrame emptyRecord).outcome = Outcome.returned none ∧
    ((scenarioHook "").Fire { zeroFrame with Function := "/" } emptyRecord).outcome =
      Outcome.returned none ∧
    ((scenarioHook "").Fire { zeroFrame with Function := "." } emptyRecord).outcome =
      Outcome.returned none :=
  ⟨rfl,
    Fire_returns_nil (scenarioHook "") zeroFrame emptyRecord _ rfl,
    Fire_returns_nil (scenarioHook "") { zeroFrame with Function := "/" } emptyRecord _ rfl,
    Fire_returns_nil (scenarioHook "") { zeroFrame with Function := "." } emptyRecord _ rfl⟩

/-- C9 as stated fails: on the zero-value record, whose field mapping is `nil`,
the assignment to `e.Data["src"]` panics, so `Fire` does not return. -/
theorem Fire_nil_map_counterexample :
    ((scenarioHook "").Fire zeroFrame nilRecord).outcome =
      Outcome.panicked PanicValue.assignToNilMap ∧
    ((scenarioHook "").Fire zeroFrame nilRecord).outcome ≠ Outcome.returned none := by
  decide

/-- C10: for every record, configuration and frame, every key other than `fn`,
`src` and `ver` is bound after `Fire` exactly as it was before, the level and
the message of the record are untouched, and the hook is unchanged. -/
theorem Fire_frame_condition (h : hook) (caller : Frame) (e : Entry) (k : String)
    (hfn : k ≠ "fn") (hsrc : k ≠ "src") (hver : k ≠ "ver") :
    (h.Fire caller e).e.get k = e.get k ∧
    (h.Fire caller e).e.Level = e.Level ∧
    (h.Fire caller e).e.Message = e.Message ∧
    (h.Fire caller e).h = h := by
  cases hd : e.Data with
  | none =>
    rw [Fire_of_nil h caller e hd]
    exact ⟨rfl, rfl, rfl, rfl⟩
  | some m =>
    rw [Fire_of_map h caller e m hd]
    refine ⟨?_, rfl, rfl, rfl⟩
    simp [Entry.get, hd, hfn, hsrc, hver]

/-- C10, instances: a key `trace_id` keeps its value, and a key that was absent
stays absent. -/
theorem Fire_frame_condition_witness :
    ("trace_id" ≠ "fn" ∧ "trace_id" ≠ "src" ∧ "trace_id" ≠ "ver") ∧
    ((scenarioHook "v1.2.3").Fire scenarioFrame
      (recordWith "trace_id" (Value.other 7))).e.get "trace_id" = some (Value.other 7) ∧
    ((scenarioHook "v1.2.3").Fire scenarioFrame emptyRecord).e.get "trace_id" = none ∧
    ((scenarioHook "v1.2.3").Fire scenarioFrame emptyRecord).h = scenarioHook "v1.2.3" :=
  ⟨by decide,
    (Fire_frame_condition (scenarioHook "v1.2.3") scenarioFrame
      (recordWith "trace_id" (Value.other 7)) "trace_id" (by decide) (by decide)
      (by decide)).1,
    (Fire_frame_condition (scenarioHook "v1.2.3") scenarioFrame emptyRecord "trace_id"
      (by decide) (by decide) (by decide)).1,
    (Fire_frame_condition (scenarioHook "v1.2.3") scenarioFrame emptyRecord "trace_id"
      (by decide) (by decide) (by decide)).2.2.2⟩

end debug

/-! ## Options, the zero-value frame and the short function name -/

namespace debug

open logrus stackcache

theorem limitPath_empty (n : Int) : limitPath "" n = "" := by
  by_cases hn : n ≤ 0
  · simp only [limitPath, if_pos hn]
  · have hpos : 0 < n := not_le.mp hn
    have hseg : segments "" = [[]] := rfl
    have h0 : (1 : Nat) - n.toNat = 0 := by omega
    rw [limitPath_of_pos "" n hpos]
    simp only [trailingSegments, hseg, List.length_singleton, h0, List.drop_zero]
    rfl

theorem checkHookOptions_limit (env : Env) (opt : HookOptions) :
    (checkHookOptions env (some opt)).PathSegmentsLimit =
      if opt.PathSegmentsLimit = 0 then 3 else opt.PathSegmentsLimit := by
  simp only [checkHookOptions]
  split_ifs <;> simp_all

theorem checkHookOptions_version (env : Env) (opt : HookOptions) :
    (checkHookOptions env (some opt)).AppVersion =
      if opt.AppVersion.length = 0 then Getenv env "APP_VERSION" else opt.AppVersion := by
  simp only [checkHookOptions]
  split_ifs <;> simp_all

/-- C11 (amended): a negative configured `PathSegmentsLimit` disables trimming:
the hook `NewHook` builds from such options writes `src` as the file path of
the frame unmodified, a colon and the line number.  A configured limit of 0 is
replaced by the default 3 at construction, so `src` then holds the path trimmed
to three segments. -/
theorem NewHook_nonpositive_limit (env : Env) (logger : RootLogger) (opt : HookOptions)
    (caller : Frame) (e : Entry) (m : Fields) (hm : e.Data = some m) :
    (opt.PathSegmentsLimit < 0 →
      ((NewHook env logger (some opt)).Fire caller e).e.get "src" =
        some (Value.str (caller.File ++ ":" ++ fmt.formatInt caller.Line))) ∧
    (opt.PathSegmentsLimit = 0 →
      ((NewHook env logger (some opt)).Fire caller e).e.get "src" =
        some (Value.str (limitPath caller.File 3 ++ ":" ++ fmt.formatInt caller.Line))) := by
  have hlim : (NewHook env logger (some opt)).opt.PathSegmentsLimit =
      if opt.PathSegmentsLimit = 0 then 3 else opt.PathSegmentsLimit :=
    checkHookOptions_limit env opt
  have hsrc : ((NewHook env logger (some opt)).Fire caller e).e.get "src" =
      some (Value.str (limitPath caller.File
        (NewHook env logger (some opt)).opt.PathSegmentsLimit ++ ":" ++
        fmt.formatInt caller.Line)) := by
    rw [Fire_of_map _ caller e m hm]
    simp [Entry.get]
  refine ⟨fun hneg => ?_, fun hzero => ?_⟩
  · have hne : ¬ opt.PathSegmentsLimit = 0 := by omega
    have hle : opt.PathSegmentsLimit ≤ 0 := by omega
    rw [hsrc, hlim, if_neg hne]
    simp only [limitPath, if_pos hle]
  · rw [hsrc, hlim, if_pos hzero]

/-- C11, instances: with limit -1 the file path of the scenario is written in
full; with limit 0 it is trimmed to three segments. -/
theorem NewHook_nonpositive_limit_witness :
    emptyRecord.Data = some (fun _ => none) ∧
    (({ scenarioOptions "" with PathSegmentsLimit := -1 } : HookOptions).PathSegmentsLimit < 0 ∧
      ((NewHook noEnv { handle := 0 }
        (some { scenarioOptions "" with PathSegmentsLimit := -1 })).Fire scenarioFrame
          emptyRecord).e.get "src" =
        some (Value.str "/home/user/src/acme/app/worker.go:42")) ∧
    (({ scenarioOptions "" with PathSegmentsLimit := 0 } : HookOptions).PathSegmentsLimit = 0 ∧
      ((NewHook noEnv { handle := 0 }
        (some { scenarioOptions "" with PathSegmentsLimit := 0 })).Fire scenarioFrame
          emptyRecord).e.get "src" =
        some (Value.str "acme/app/worker.go:42")) :=
  ⟨rfl,
    ⟨by decide,
      ((NewHook_nonpositive_limit noEnv { handle := 0 }
        { scenarioOptions "" with PathSegmentsLimit := -1 } scenarioFrame emptyRecord _ rfl).1
        (by decide)).trans (by decide)⟩,
    ⟨by decide,
      ((NewHook_nonpositive_limit noEnv { handle := 0 }
        { scenarioOptions "" with PathSegmentsLimit := 0 } scenarioFrame emptyRecord _ rfl).2
        (by decide)).trans (by decide)⟩⟩

/-- C11 as stated fails: options with `PathSegmentsLimit = 0` give a hook whose
limit is 3, and `src` is the trimmed path, not the file path of the frame. -/
theorem NewHook_zero_limit_counterexample :
    ({ scenarioOptions "" with PathSegmentsLimit := 0 } : HookOptions).PathSegmentsLimit ≤ 0 ∧
    (NewHook noEnv { handle := 0 }
      (some { scenarioOptions "" with PathSegmentsLimit := 0 })).opt.PathSegmentsLimit = 3 ∧
    ((NewHook noEnv { handle := 0 }
      (some { scenarioOptions "" with PathSegmentsLimit := 0 })).Fire scenarioFrame
        emptyRecord).e.get "src" ≠
      some (Value.str (scenarioFrame.File ++ ":" ++ fmt.formatInt scenarioFrame.Line)) := by
  decide

/-- C12: on the zero-value frame and a record with a usable field mapping, for
every configuration, `Fire` returns, binds `src` to `:0`, leaves the entry of
`fn` as it was, and binds `ver` to the version when that is non-empty and
leaves it as it was otherwise. -/
theorem Fire_zero_frame (h : hook) (e : Entry) (m : Fields) (hm : e.Data = some m) :
    (h.Fire zeroFrame e).outcome = Outcome.returned none ∧
    (h.Fire zeroFrame e).e.get "src" = some (Value.str ":0") ∧
    (h.Fire zeroFrame e).e.get "fn" = m "fn" ∧
    (h.opt.AppVersion ≠ "" →
      (h.Fire zeroFrame e).e.get "ver" = some (Value.str h.opt.AppVersion)) ∧
    (h.opt.AppVersion = "" → (h.Fire zeroFrame e).e.get "ver" = m "ver") := by
  have hfile : limitPath zeroFrame.File h.opt.PathSegmentsLimit = "" :=
    limitPath_empty h.opt.PathSegmentsLimit
  have hline : ("" : String) ++ ":" ++ fmt.formatInt zeroFrame.Line = ":0" := by decide
  have hfn : ¬ 0 < zeroFrame.Function.length := by decide
  rw [Fire_of_map h zeroFrame e m hm, hfile, hline]
  refine ⟨rfl, ?_, ?_, ?_, ?_⟩
  · simp [Entry.get]
  · simp [Entry.get, hfn]
  · intro hv
    have hlen := length_pos_of_ne_empty _ hv
    simp [Entry.get, hlen]
  · intro hv
    simp [Entry.get, hv]

/-- C12, instances: limits 3, 0 and -2, with and without a version. -/
theorem Fire_zero_frame_witness :
    emptyRecord.Data = some (fun _ => none) ∧
    ((scenarioHook "").Fire zeroFrame emptyRecord).e.get "src" = some (Value.str ":0") ∧
    ((scenarioHook "").Fire zeroFrame emptyRecord).e.get "fn" = none ∧
    ((scenarioHook "").Fire zeroFrame emptyRecord).e.get "ver" = none ∧
    ((NewHook noEnv { handle := 0 }
      (some { scenarioOptions "v1.2.3" with PathSegmentsLimit := -2 })).Fire zeroFrame
        emptyRecord).e.get "src" = some (Value.str ":0") ∧
    ((NewHook noEnv { handle := 0 }
      (some { scenarioOptions "v1.2.3" with PathSegmentsLimit := -2 })).Fire zeroFrame
        emptyRecord).e.get "ver" = some (Value.str "v1.2.3") :=
  ⟨rfl,
    (Fire_zero_frame (scenarioHook "") emptyRecord _ rfl).2.1,
    (Fire_zero_frame (scenarioHook "") emptyRecord _ rfl).2.2.1,
    (Fire_zero_frame (scenarioHook "") emptyRecord _ rfl).2.2.2.2 (by decide),
    (Fire_zero_frame (NewHook noEnv { handle := 0 }
      (some { scenarioOptions "v1.2.3" with PathSegmentsLimit := -2 })) emptyRecord _ rfl).2.1,
    ((Fire_zero_frame (NewHook noEnv { handle := 0 }
      (some { scenarioOptions "v1.2.3" with PathSegmentsLimit := -2 })) emptyRecord _
        rfl).2.2.2.1 (by decide)).trans (by decide)⟩

/-- C13: the version of a hook built by `NewHook` is the configured `AppVersion`
when that is non-empty, whatever the environment holds; otherwise it is the
value of the environment variable `APP_VERSION`, which is the empty string when
the variable is not set. -/
theorem NewHook_AppVersion (env : Env) (logger : RootLogger) :
    (∀ opt : HookOptions, opt.AppVersion ≠ "" →
      (NewHook env logger (some opt)).opt.AppVersion = opt.AppVersion) ∧
    (∀ opt : HookOptions, opt.AppVersion = "" →
      (NewHook env logger (some opt)).opt.AppVersion = (env "APP_VERSION").getD "") ∧
    (NewHook env logger none).opt.AppVersion = (env "APP_VERSION").getD "" ∧
    (env "APP_VERSION" = none →
      (NewHook env logger none).opt.AppVersion = "" ∧
      ∀ opt : HookOptions, opt.AppVersion = "" →
        (NewHook env logger (some opt)).opt.AppVersion = "") := by
  have hsome : ∀ opt : HookOptions, (NewHook env logger (some opt)).opt.AppVersion =
      if opt.AppVersion.length = 0 then Getenv env "APP_VERSION" else opt.AppVersion :=
    fun opt => checkHookOptions_version env opt
  have hnone : (NewHook env logger none).opt.AppVersion = (env "APP_VERSION").getD "" := by
    simp only [NewHook, checkHookOptions]
    split_ifs <;> simp_all [Getenv]
  have hempty : ∀ opt : HookOptions, opt.AppVersion = "" →
      (NewHook env logger (some opt)).opt.AppVersion = (env "APP_VERSION").getD "" := by
    intro opt hv
    have hlen : opt.AppVersion.length = 0 := by rw [hv]; rfl
    rw [hsome opt, if_pos hlen]
    rfl
  refine ⟨fun opt hv => ?_, hempty, hnone, fun henv => ⟨?_, fun opt hv => ?_⟩⟩
  · have hlen : ¬ opt.AppVersion.length = 0 := by
      have := length_pos_of_ne_empty _ hv
      omega
    rw [hsome opt, if_neg hlen]
  · rw [hnone, henv]
    rfl
  · rw [hempty opt hv, henv]
    rfl

/-- C13, instances: a configured version wins over the environment; without one
the environment decides; with neither the version is empty. -/
theorem NewHook_AppVersion_witness :
    ((scenarioOptions "v1.2.3").AppVersion ≠ "" ∧
      (NewHook (fun k => if k = "APP_VERSION" then some "v9" else none) { handle := 0 }
        (some (scenarioOptions "v1.2.3"))).opt.AppVersion = "v1.2.3") ∧
    ((scenarioOptions "").AppVersion = "" ∧
      (NewHook (fun k => if k = "APP_VERSION" then some "v9" else none) { handle := 0 }
        (some (scenarioOptions ""))).opt.AppVersion = "v9") ∧
    (noEnv "APP_VERSION" = none ∧ (NewHook noEnv { handle := 0 } none).opt.AppVersion = "") :=
  ⟨⟨by decide,
      (NewHook_AppVersion (fun k => if k = "APP_VERSION" then some "v9" else none)
        { handle := 0 }).1 (scenarioOptions "v1.2.3") (by decide)⟩,
    ⟨rfl,
      ((NewHook_AppVersion (fun k => if k = "APP_VERSION" then some "v9" else none)
        { handle := 0 }).2.1 (scenarioOptions "") rfl).trans (by decide)⟩,
    ⟨rfl, ((NewHook_AppVersion noEnv { handle := 0 }).2.2.2 rfl).1⟩⟩

end debug

/-! ## The stack resolver -/

namespace stackcache

theorem scanFrames_congr (own : Frame → Bool) (s t : Nat → Option Frame) (window i : Nat)
    (hst : ∀ j, i ≤ j → j < i + window → s j = t j) :
    scanFrames own s window i = scanFrames own t window i := by
  induction window generalizing i with
  | zero => rfl
  | succ w ih =>
    have hi : s i = t i := hst i (le_refl i) (by omega)
    have hrec := ih (i + 1) (fun j h1 h2 => hst j (by omega) (by omega))
    simp only [scanFrames, hi, hrec]

theorem scanFrames_all_own (own : Frame → Bool) (s : Nat → Option Frame) (window i : Nat)
    (hown : ∀ j, i ≤ j → j < i + window → ∀ f, s j = some f → own f = true) :
    scanFrames own s window i = { Function := "", File := "", Line := 0 } := by
  induction window generalizing i with
  | zero => rfl
  | succ w ih =>
    have hrec := ih (i + 1) (fun j h1 h2 => hown j (by omega) (by omega))
    cases hs : s i with
    | none => simp only [scanFrames, hs]
    | some f =>
      have hf : own f = true := hown i (le_refl i) (by omega) f hs
      simp only [scanFrames, hs, hf, if_true, hrec]

theorem scanFrames_exhausted (own : Frame → Bool) (s : Nat → Option Frame) (window i : Nat)
    (k : Nat) (hk : i ≤ k) (hend : s k = none)
    (hown : ∀ j, i ≤ j → j < k → ∀ f, s j = some f → own f = true) :
    scanFrames own s window i = { Function := "", File := "", Line := 0 } := by
  induction window generalizing i with
  | zero => rfl
  | succ w ih =>
    cases hs : s i with
    | none => simp only [scanFrames, hs]
    | some f =>
      have hik : i ≠ k := by
        intro h
        rw [h, hend] at hs
        exact Option.noConfusion hs
      have hf : own f = true := hown i (le_refl i) (by omega) f hs
      have hrec := ih (i + 1) (by omega) (fun j h1 h2 => hown j (by omega) h2)
      simp only [scanFrames, hs, hf, if_true, hrec]

theorem scanFrames_result (own : Frame → Bool) (s : Nat → Option Frame) (window i : Nat) :
    scanFrames own s window i = { Function := "", File := "", Line := 0 } ∨
    ∃ j, i ≤ j ∧ j < i + window ∧ s j = some (scanFrames own s window i) ∧
      own (scanFrames own s window i) = false ∧
      ∀ l, i ≤ l → l < j → ∃ f, s l = some f ∧ own f = true := by
  induction window generalizing i with
  | zero => exact Or.inl rfl
  | succ w ih =>
    cases hs : s i with
    | none => exact Or.inl (by simp only [scanFrames, hs])
    | some f =>
      cases hf : own f with
      | false =>
        refine Or.inr ⟨i, le_refl i, by omega, ?_, ?_, fun l h1 h2 => absurd h1 (by omega)⟩
        · simp only [scanFrames, hs, hf, Bool.false_eq_true, if_false]
        · simp only [scanFrames, hs, hf, Bool.false_eq_true, if_false]
      | true =>
        have heq : scanFrames own s (w + 1) i = scanFrames own s w (i + 1) := by
          simp only [scanFrames, hs, hf, if_true]
        rw [heq]
        rcases ih (i + 1) with h | ⟨j, h1, h2, h3, h4, h5⟩
        · exact Or.inl h
        · refine Or.inr ⟨j, by omega, by omega, h3, h4, fun l hl1 hl2 => ?_⟩
          by_cases hli : l = i
          · exact ⟨f, by rw [hli]; exact hs, hf⟩
          · exact h5 l (by omega) hl2

/-- C14: the operation `GetCaller` of the resolver is a total function of the call stack, the
offsets and the window: it returns a frame for every input.  Its result depends
only on the `window` frames from the start index on; it is the zero-value
frame when every frame in that window belongs to the owning module and when
the stack ends before a frame outside the owning module is met; otherwise it
is the first frame in the window that does not belong to the owning module.
The resolver of a hook built by `NewHook` has base offset 6. -/
theorem GetCaller_bounded_search (s : StackCache) (window : Nat)
    (belongs : String → Frame → Bool) (stack : Nat → Option Frame) :
    (∀ other : Nat → Option Frame,
      (∀ j, (s.baseOffset + s.extraOffset).toNat ≤ j →
        j < (s.baseOffset + s.extraOffset).toNat + window → stack j = other j) →
      GetCaller s window belongs stack = GetCaller s window belongs other) ∧
    ((∀ j, (s.baseOffset + s.extraOffset).toNat ≤ j →
        j < (s.baseOffset + s.extraOffset).toNat + window →
        ∀ f, stack j = some f → belongs s.module f = true) →
      GetCaller s window belongs stack = { Function := "", File := "", Line := 0 }) ∧
    (∀ k, (s.baseOffset + s.extraOffset).toNat ≤ k → stack k = none →
      (∀ j, (s.baseOffset + s.extraOffset).toNat ≤ j → j < k →
        ∀ f, stack j = some f → belongs s.module f = true) →
      GetCaller s window belongs stack = { Function := "", File := "", Line := 0 }) ∧
    (GetCaller s window belongs stack = { Function := "", File := "", Line := 0 } ∨
      ∃ j, (s.baseOffset + s.extraOffset).toNat ≤ j ∧
        j < (s.baseOffset + s.extraOffset).toNat + window ∧
        stack j = some (GetCaller s window belongs stack) ∧
        belongs s.module (GetCaller s window belongs stack) = false ∧
        ∀ l, (s.baseOffset + s.extraOffset).toNat ≤ l → l < j →
          ∃ f, stack l = some f ∧ belongs s.module f = true) ∧
    (∀ (env : debug.Env) (logger : debug.RootLogger) (opt : Option debug.HookOptions),
      (debug.NewHook env logger opt).stack.baseOffset = 6) :=
  ⟨fun other h => scanFrames_congr _ stack other window _ h,
    fun h => scanFrames_all_own _ stack window _ h,
    fun k hk hend h => scanFrames_exhausted _ stack window _ k hk hend h,
    scanFrames_result _ stack window _,
    fun _ _ _ => rfl⟩

/-- C14, an instance: on a stack without end whose frames all belong to the owning
module, the search over a window of 25 frames returns the zero-value frame. -/
theorem GetCaller_bounded_search_witness :
    GetCaller (New 6 0 "github.com/InjectiveLabs/suplog") 25 (fun _ _ => true)
      (fun _ => some (Frame.mk "github.com/InjectiveLabs/suplog.Debug" "log.go" 10)) =
      { Function := "", File := "", Line := 0 } :=
  (GetCaller_bounded_search (New 6 0 "github.com/InjectiveLabs/suplog") 25 (fun _ _ => true)
    (fun _ => some (Frame.mk "github.com/InjectiveLabs/suplog.Debug" "log.go" 10))).2.1
    (fun _ _ _ _ _ => rfl)

end stackcache

/-! ## The index expressions and the value of `fn` -/

namespace debug

open logrus stackcache

/-- The result of `afterLast` is an end piece of its input. -/
theorem afterLast_suffix (c : Char) (s : List Char) :
    ∃ pre, s = pre ++ afterLast c s := by
  refine ⟨(s.reverse.dropWhile (fun x => x != c)).reverse, ?_⟩
  unfold afterLast
  rw [← List.reverse_append, List.takeWhile_append_dropWhile, List.reverse_reverse]

theorem afterLast_of_getLast? (c : Char) (s : List Char) (hs : s.getLast? = some c) :
    afterLast c s = [] := by
  have hrev : s.reverse.head? = some c := by rw [List.head?_reverse]; exact hs
  unfold afterLast
  cases hr : s.reverse with
  | nil => rfl
  | cons x xs =>
    rw [hr] at hrev
    simp only [List.head?_cons, Option.some.injEq] at hrev
    simp [List.takeWhile, hrev]

theorem afterLast_getLast? (c d : Char) (s : List Char) (hcd : d ≠ c)
    (hs : s.getLast? = some d) : (afterLast c s).getLast? = some d := by
  have hrev : s.reverse.head? = some d := by rw [List.head?_reverse]; exact hs
  unfold afterLast
  rw [List.getLast?_reverse]
  cases hr : s.reverse with
  | nil => rw [hr] at hrev; exact Option.noConfusion hrev
  | cons x xs =>
    rw [hr] at hrev
    simp only [List.head?_cons, Option.some.injEq] at hrev
    have hb : (d != c) = true := bne_iff_ne.mpr hcd
    simp only [List.takeWhile, hrev, hb, List.head?_cons]

/-- C17: for every function identifier, `strings.Split(id, "/")` has at least one
element, so has the split of any string on `.`, both last-element index
expressions of `Fire` yield a value, and `Fire` never ends in an index
panic. -/
theorem Fire_index_in_range (h : hook) (caller : Frame) (e : Entry) :
    0 < (strings.Split caller.Function.data '/').length ∧
    (∃ last, (strings.Split caller.Function.data '/')[
        (strings.Split caller.Function.data '/').length - 1]? = some last ∧
      0 < (strings.Split last '.').length ∧
      ∃ name, (strings.Split last '.')[(strings.Split last '.').length - 1]? = some name) ∧
    (h.Fire caller e).outcome ≠ Outcome.panicked PanicValue.indexOutOfRange := by
  refine ⟨strings.Split_length_pos _ _, ⟨_, Split_last _ _, strings.Split_length_pos _ _,
    _, Split_last _ _⟩, ?_⟩
  cases hd : e.Data with
  | none =>
    rw [Fire_of_nil h caller e hd]
    simp
  | some m =>
    rw [Fire_of_map h caller e m hd]
    simp

/-- C18: for every non-empty function identifier (and every record with a usable
field mapping), the value `Fire` writes under `fn` contains neither `/` nor
`.` and is an end piece of the identifier; when the identifier ends in `/` or
`.` the value is the empty string, and `fn` is written all the same. -/
theorem Fire_fn_shape (h : hook) (caller : Frame) (e : Entry) (m : Fields)
    (hm : e.Data = some m) (hfn : caller.Function ≠ "") :
    ∃ v : List Char,
      (h.Fire caller e).e.get "fn" = some (Value.str (String.mk v)) ∧
      '/' ∉ v ∧ '.' ∉ v ∧ (∃ pre, caller.Function.data = pre ++ v) ∧
      ((caller.Function.data.getLast? = some '/' ∨ caller.Function.data.getLast? = some '.') →
        v = []) := by
  have hlen := length_pos_of_ne_empty _ hfn
  obtain ⟨p1, hp1⟩ := afterLast_suffix '/' caller.Function.data
  obtain ⟨p2, hp2⟩ := afterLast_suffix '.' (afterLast '/' caller.Function.data)
  refine ⟨afterLast '.' (afterLast '/' caller.Function.data), ?_, ?_, afterLast_free _ _,
    ⟨p1 ++ p2, ?_⟩, ?_⟩
  · rw [Fire_of_map h caller e m hm]
    simp [Entry.get, hlen]
  · intro hmem
    have h1 : '/' ∈ afterLast '/' caller.Function.data := by
      rw [hp2]
      exact List.mem_append_right _ hmem
    exact afterLast_free _ _ h1
  · rw [List.append_assoc, ← hp2, ← hp1]
  · rintro (hs | hs)
    · rw [afterLast_of_getLast? '/' _ hs]
      rfl
    · exact afterLast_of_getLast? '.' _ (afterLast_getLast? '/' '.' _ (by decide) hs)

/-- C18, instances: `github.com/acme/app.(*Worker).Run` gives `Run`; the
identifiers `pkg.` and `a/b/` give the empty string, written under `fn`. -/
theorem Fire_fn_shape_witness :
    emptyRecord.Data = some (fun _ => none) ∧
    ((scenarioHook "").Fire { zeroFrame with Function := "pkg." } emptyRecord).e.get "fn" =
      some (Value.str "") ∧
    ((scenarioHook "").Fire { zeroFrame with Function := "a/b/" } emptyRecord).e.get "fn" =
      some (Value.str "") ∧
    (∃ v : List Char,
      ((scenarioHook "").Fire scenarioFrame emptyRecord).e.get "fn" =
        some (Value.str (String.mk v)) ∧
      '/' ∉ v ∧ '.' ∉ v ∧ (∃ pre, scenarioFrame.Function.data = pre ++ v) ∧
      ((scenarioFrame.Function.data.getLast? = some '/' ∨
        scenarioFrame.Function.data.getLast? = some '.') → v = [])) :=
  ⟨rfl, by decide, by decide,
    Fire_fn_shape (scenarioHook "") scenarioFrame emptyRecord _ rfl (by decide)⟩

end debug

/-! ## The number of elements `filepath.Clean` writes -/

namespace filepath

theorem IsPathSeparator_false_iff (c : Char) : IsPathSeparator c = false ↔ c ≠ Separator := by
  simp [IsPathSeparator]

/-- The copy loop reads a separator-free piece of the input, appends it to the
buffer and stops at the end of the input or in front of a separator. -/
theorem copyElement_spec (path out : List Char) :
    ∃ e rest, path = e ++ rest ∧ copyElement path out = (rest, out ++ e) ∧ Separator ∉ e ∧
      (rest = [] ∨ ∃ t, rest = Separator :: t) ∧
      (∀ c cs, path = c :: cs → IsPathSeparator c = false → ∃ es, e = c :: es) := by
  induction path generalizing out with
  | nil =>
    exact ⟨[], [], rfl, by simp [copyElement], by simp, Or.inl rfl,
      fun c cs h => List.noConfusion h⟩
  | cons c cs ih =>
    cases hc : IsPathSeparator c with
    | true =>
      have hsep : c = Separator := (IsPathSeparator_iff c).mp hc
      refine ⟨[], c :: cs, rfl, by simp [copyElement, hc], by simp, Or.inr ⟨cs, by rw [hsep]⟩,
        fun d ds h hd => ?_⟩
      have hdc : d = c := (List.cons.inj h.symm).1.symm ▸ rfl
      rw [hdc, hc] at hd
      exact Bool.noConfusion hd
    | false =>
      obtain ⟨e, rest, h1, h2, h3, h4, _⟩ := ih (out ++ [c])
      have hne : c ≠ Separator := (IsPathSeparator_false_iff c).mp hc
      refine ⟨c :: e, rest, by rw [h1]; rfl, ?_, ?_, h4, fun d ds h _ => ?_⟩
      · rw [copyElement, hc]
        simp only [Bool.false_eq_true, if_false]
        rw [h2]
        simp
      · intro hmem
        rcases List.mem_cons.mp hmem with h | h
        · exact hne h.symm
        · exact h3 h
      · exact ⟨e, by rw [(List.cons.inj h).1]⟩

theorem withSeparator_rooted_false (out : List Char) :
    (if (false = true ∧ out.length ≠ 1) ∨ (false = false ∧ out.length ≠ 0) then
      out ++ [Separator] else out) = withSeparator out := by
  unfold withSeparator
  cases out <;> simp

theorem withSeparator_length_pos (out : List Char) :
    (if 0 < out.length then out ++ [Separator] else out) = withSeparator out := by
  unfold withSeparator
  cases out <;> simp

/-- One turn of the loop of `Clean` on a path that is not rooted. -/
theorem cleanLoop_false_step (fuel : Nat) (c : Char) (rest out : List Char) (dotdot : Nat) :
    cleanLoop false (fuel + 1) (c :: rest) out dotdot =
      if IsPathSeparator c then
        cleanLoop false fuel rest out dotdot
      else if c = '.' ∧ (rest = [] ∨ (rest.head?.map IsPathSeparator) = some true) then
        cleanLoop false fuel rest out dotdot
      else if c = '.' ∧ rest.head? = some '.' ∧
          (rest.tail = [] ∨ (rest.tail.head?.map IsPathSeparator) = some true) then
        if dotdot < out.length then
          cleanLoop false fuel rest.tail
            (out.take (backtrack out dotdot (out.length - 1))) dotdot
        else
          cleanLoop false fuel rest.tail (withSeparator out ++ ['.', '.'])
            (withSeparator out ++ ['.', '.']).length
      else
        cleanLoop false fuel (copyElement (c :: rest) (withSeparator out)).1
          (copyElement (c :: rest) (withSeparator out)).2 dotdot := by
  rw [cleanLoop_succ_cons, withSeparator_rooted_false, withSeparator_length_pos]
  simp only [if_true]

theorem boundary_of_head (rest : List Char)
    (h : rest = [] ∨ (rest.head?.map IsPathSeparator) = some true) :
    rest = [] ∨ ∃ t, rest = Separator :: t := by
  rcases h with h | h
  · exact Or.inl h
  · cases rest with
    | nil => exact Or.inl rfl
    | cons d ds =>
      simp only [List.head?_cons, Option.map_some', Option.some.injEq] at h
      exact Or.inr ⟨ds, by rw [(IsPathSeparator_iff d).mp h]⟩

theorem elementBound_le (l : List Char) : elementBound l ≤ l.count Separator + 1 := by
  cases l with
  | nil => simp [elementBound]
  | cons c cs =>
    show (if IsPathSeparator c then (c :: cs).count Separator
      else (c :: cs).count Separator + 1) ≤ (c :: cs).count Separator + 1
    split <;> omega

theorem elementBound_boundary (l : List Char) (h : l = [] ∨ ∃ t, l = Separator :: t) :
    elementBound l ≤ l.count Separator := by
  rcases h with h | ⟨t, h⟩
  · subst h; simp [elementBound]
  · subst h
    have hs : IsPathSeparator Separator = true := (IsPathSeparator_iff _).mpr rfl
    simp only [elementBound, hs, if_true]
    exact le_refl _

theorem elementBound_cons_separator (c : Char) (rest : List Char)
    (hc : IsPathSeparator c = true) : elementBound (c :: rest) = rest.count Separator + 1 := by
  have hsep : c = Separator := (IsPathSeparator_iff c).mp hc
  show (if IsPathSeparator c then (c :: rest).count Separator
    else (c :: rest).count Separator + 1) = rest.count Separator + 1
  rw [if_pos hc, hsep, List.count_cons_self]

theorem elementBound_cons_other (c : Char) (rest : List Char)
    (hc : IsPathSeparator c = false) : elementBound (c :: rest) = rest.count Separator + 1 := by
  have hne : Separator ≠ c := fun h => (IsPathSeparator_false_iff c).mp hc h.symm
  show (if IsPathSeparator c then (c :: rest).count Separator
    else (c :: rest).count Separator + 1) = rest.count Separator + 1
  rw [hc, if_neg Bool.false_ne_true, List.count_cons_of_ne hne]

theorem elementCount_take (out : List Char) (k : Nat) :
    elementCount (out.take k) ≤ elementCount out := by
  have hle : (out.take k).count Separator ≤ out.count Separator :=
    (List.take_sublist k out).count_le Separator
  unfold elementCount
  by_cases h1 : out.take k = []
  · rw [if_pos h1]; exact Nat.zero_le _
  · have h2 : out ≠ [] := by
      intro h
      rw [h] at h1
      exact h1 (by simp)
    rw [if_neg h1, if_neg h2]
    omega

theorem elementCount_append_element (out e : List Char) (hne : e ≠ [])
    (hfree : e.count Separator = 0) :
    elementCount (withSeparator out ++ e) = elementCount out + 1 := by
  unfold elementCount withSeparator
  by_cases h : out = []
  · subst h
    simp [hne, hfree]
  · have h2 : ¬ ((out ++ [Separator]) ++ e = []) := by simp [h]
    rw [if_neg h, if_neg h, if_neg h2]
    simp [hfree]

/-- The loop of `Clean` on a path that is not rooted never writes more elements
than the buffer holds and the unread input can still give. -/
theorem elementCount_cleanLoop (fuel : Nat) (path out : List Char) (dotdot : Nat) :
    elementCount (cleanLoop false fuel path out dotdot) ≤
      elementCount out + elementBound path := by
  induction fuel generalizing path out dotdot with
  | zero => exact Nat.le_add_right _ _
  | succ fuel ih =>
    cases path with
    | nil => rw [cleanLoop_nil]; exact Nat.le_add_right _ _
    | cons c rest =>
      rw [cleanLoop_false_step]
      by_cases h1 : IsPathSeparator c = true
      · rw [if_pos h1, elementBound_cons_separator c rest h1]
        have := ih rest out dotdot
        have := elementBound_le rest
        omega
      · have hc : IsPathSeparator c = false := by
          cases hs : IsPathSeparator c with
          | false => rfl
          | true => exact absurd hs h1
        rw [if_neg h1, elementBound_cons_other c rest hc]
        by_cases h2 : c = '.' ∧ (rest = [] ∨ (rest.head?.map IsPathSeparator) = some true)
        · rw [if_pos h2]
          have := ih rest out dotdot
          have := elementBound_boundary rest (boundary_of_head rest h2.2)
          omega
        · rw [if_neg h2]
          by_cases h3 : c = '.' ∧ rest.head? = some '.' ∧
              (rest.tail = [] ∨ (rest.tail.head?.map IsPathSeparator) = some true)
          · rw [if_pos h3]
            have hb := elementBound_boundary rest.tail (boundary_of_head rest.tail h3.2.2)
            have hcnt : rest.tail.count Separator ≤ rest.count Separator :=
              (List.tail_sublist rest).count_le Separator
            by_cases h4 : dotdot < out.length
            · rw [if_pos h4]
              have := ih rest.tail (out.take (backtrack out dotdot (out.length - 1))) dotdot
              have := elementCount_take out (backtrack out dotdot (out.length - 1))
              omega
            · rw [if_neg h4]
              have := ih rest.tail (withSeparator out ++ ['.', '.'])
                (withSeparator out ++ ['.', '.']).length
              have := elementCount_append_element out ['.', '.'] (by simp) (by decide)
              omega
          · rw [if_neg h3]
            obtain ⟨e, rest2, hp, hcopy, hfree, hbound, hhead⟩ :=
              copyElement_spec (c :: rest) (withSeparator out)
            obtain ⟨es, hes⟩ := hhead c rest rfl hc
            have hstep : cleanLoop false fuel (copyElement (c :: rest) (withSeparator out)).1
                (copyElement (c :: rest) (withSeparator out)).2 dotdot =
                cleanLoop false fuel rest2 (withSeparator out ++ e) dotdot := by
              rw [hcopy]
            rw [hstep]
            have hcnt0 : e.count Separator = 0 := List.count_eq_zero.mpr hfree
            have hcnt : (c :: rest).count Separator = rest2.count Separator := by
              rw [hp, List.count_append, hcnt0, Nat.zero_add]
            have hcr : (c :: rest).count Separator = rest.count Separator := by
              have hne : Separator ≠ c := fun h => (IsPathSeparator_false_iff c).mp hc h.symm
              exact List.count_cons_of_ne hne rest
            have := ih rest2 (withSeparator out ++ e) dotdot
            have := elementCount_append_element out e (by rw [hes]; simp) hcnt0
            have := elementBound_boundary rest2 hbound
            omega

end filepath

namespace strings

theorem splitLoop_length (sep : Char) (s cur : List Char) :
    (splitLoop sep s cur).length = s.count sep + 1 := by
  induction s generalizing cur with
  | nil => rfl
  | cons c cs ih =>
    rw [splitLoop_cons]
    by_cases h : c = sep
    · rw [if_pos h, List.length_cons, ih, h, List.count_cons_self]
    · have hne : sep ≠ c := fun hh => h hh.symm
      rw [if_neg h, ih, List.count_cons_of_ne hne]

/-- The function `Split` returns one piece more than there are separators. -/
theorem Split_length (s : List Char) (sep : Char) : (Split s sep).length = s.count sep + 1 :=
  splitLoop_length sep s []

end strings

namespace filepath

/-- A path that does not start with a separator is cleaned to a path with at
most as many segments. -/
theorem Clean_segments_le (c : Char) (rest : List Char) (hc : IsPathSeparator c = false) :
    (strings.Split (Clean (c :: rest)) Separator).length ≤
      (c :: rest).count Separator + 1 := by
  have hcount := elementCount_cleanLoop (c :: rest).length (c :: rest) [] 0
  have hb := elementBound_le (c :: rest)
  have h0 : elementCount [] = 0 := rfl
  simp only [Clean, hc, Bool.false_eq_true, if_false]
  by_cases hout : (cleanLoop false (c :: rest).length (c :: rest) [] 0).length = 0
  · rw [if_pos hout]
    have h1 : (strings.Split ['.'] Separator).length = 1 := rfl
    omega
  · rw [if_neg hout, strings.Split_length]
    have hne : cleanLoop false (c :: rest).length (c :: rest) [] 0 ≠ [] :=
      fun h => hout (by rw [h]; rfl)
    have hec : elementCount (cleanLoop false (c :: rest).length (c :: rest) [] 0) =
        (cleanLoop false (c :: rest).length (c :: rest) [] 0).count Separator + 1 := by
      unfold elementCount
      rw [if_neg hne]
    omega

theorem Join_head (e : List Char) (es : List (List Char)) (c : Char) (cs : List Char)
    (he : e = c :: cs) :
    ∃ t, strings.Join (e :: es) [Separator] = c :: t := by
  subst he
  cases es with
  | nil => exact ⟨cs, rfl⟩
  | cons e2 es => exact ⟨cs ++ [Separator] ++ strings.Join (e2 :: es) [Separator], rfl⟩

/-- The function `Join` of `filepath` returns a path with at most as many segments as it
is given elements, and at least one. -/
theorem Join_segments_le (segs : List (List Char)) (hfree : ∀ seg ∈ segs, Separator ∉ seg) :
    (strings.Split (Join segs) Separator).length ≤ max 1 segs.length := by
  induction segs with
  | nil => exact le_refl _
  | cons e es ih =>
    unfold Join
    by_cases he : e ≠ []
    · rw [if_pos he]
      cases hce : e with
      | nil => exact absurd hce he
      | cons c cs =>
        have hfe : Separator ∉ e := hfree e (by simp)
        have hc : IsPathSeparator c = false := by
          cases hs : IsPathSeparator c with
          | false => rfl
          | true =>
            exact absurd ((IsPathSeparator_iff c).mp hs) (fun h => hfe (by rw [hce, h]; simp))
        obtain ⟨t, ht⟩ := Join_head e es c cs hce
        have hsplit := strings.Split_Join Separator (e :: es) (by simp) hfree
        have hlen := strings.Split_length (strings.Join (e :: es) [Separator]) Separator
        rw [hsplit, ht] at hlen
        rw [← hce, ht]
        have hclean := Clean_segments_le c t hc
        simp only [List.length_cons] at hlen ⊢
        omega
    · rw [if_neg he]
      have := ih (fun seg hs => hfree seg (by simp [hs]))
      simp only [List.length_cons]
      omega

end filepath

namespace debug

theorem segments_limitPath_le (path : String) (n : Int) (hn : 0 < n) :
    ((segments (limitPath path n)).length : Int) ≤ n := by
  have hjoin := filepath.Join_segments_le (trailingSegments path n) (trailingSegments_free path n)
  have hlen : (trailingSegments path n).length ≤ n.toNat := by
    simp only [trailingSegments, List.length_drop]
    omega
  rw [limitPath_of_pos path n hn]
  simp only [segments]
  omega

/-- C15: for every path and every limit `n > 0`, `limitPath path n` splits on the
path separator into at most `n` segments. -/
theorem limitPath_segments_le (path : String) (n : Int) (hn : 0 < n) :
    ((segments (limitPath path n)).length : Int) ≤ n :=
  segments_limitPath_le path n hn

/-- C15, instances: a path with a trailing separator and one with `..` give fewer
segments than the limit, the path of the scenario gives exactly three. -/
theorem limitPath_segments_le_witness :
    ((0 : Int) < 2 ∧ (segments (limitPath "a/b/" 2)).length = 1) ∧
    ((0 : Int) < 3 ∧ (segments (limitPath "x/a/../b" 3)).length = 1) ∧
    ((0 : Int) < 3 ∧ ((segments (limitPath "/home/user/src/acme/app/worker.go" 3)).length : Int)
      ≤ 3) :=
  ⟨⟨by decide, by decide⟩, ⟨by decide, by decide⟩,
    ⟨by decide, limitPath_segments_le "/home/user/src/acme/app/worker.go" 3 (by decide)⟩⟩

end debug

/-! ## Cleaned paths -/

namespace strings

theorem Join_append_singleton (l : List (List Char)) (e sep : List Char) (hl : l ≠ []) :
    Join (l ++ [e]) sep = Join l sep ++ sep ++ e := by
  induction l with
  | nil => exact absurd rfl hl
  | cons a as ih =>
    cases as with
    | nil => simp [Join]
    | cons b bs =>
      have h1 : a :: b :: bs ++ [e] = a :: (b :: bs ++ [e]) := rfl
      rw [h1, Join_cons a _ sep (by simp), ih (by simp), Join_cons a _ sep (by simp)]
      simp

theorem Join_eq_nil (l : List (List Char)) (sep : List Char) (hl : ∀ seg ∈ l, seg ≠ [])
    (h : Join l sep = []) : l = [] := by
  cases l with
  | nil => rfl
  | cons a as =>
    have ha : a ≠ [] := hl a (by simp)
    cases as with
    | nil => exact absurd h (by simpa [Join] using ha)
    | cons b bs => exact absurd h (by simp [Join, ha])

end strings

namespace filepath

theorem getD_middle (a : List Char) (y : Char) (b : List Char) (d : Char) :
    (a ++ y :: b).getD a.length d = y := by
  induction a with
  | nil => rfl
  | cons x xs ih => simpa using ih

/-- Backtracking over a separator-free element that follows a separator stops
at that separator. -/
theorem backtrack_element (a e b : List Char) (dotdot : Nat) (he : Separator ∉ e)
    (ha : a ≠ []) (hdd : dotdot ≤ a.length) :
    backtrack (a ++ Separator :: (e ++ b)) dotdot (a.length + e.length) = a.length := by
  induction e using List.reverseRecOn generalizing b with
  | nil =>
    obtain ⟨w, hw⟩ : ∃ w, a.length = w + 1 :=
      ⟨a.length - 1, by have := List.length_pos.mpr ha; omega⟩
    have hget : (a ++ Separator :: ([] ++ b)).getD (w + 1) ' ' = Separator := by
      rw [← hw]; exact getD_middle a Separator _ ' '
    have hsep : IsPathSeparator Separator = true := (IsPathSeparator_iff _).mpr rfl
    simp only [List.length_nil, Nat.add_zero, hw]
    unfold backtrack
    rw [hget, hsep]
    simp
  | append_singleton es x ih =>
    have hx : IsPathSeparator x = false :=
      (IsPathSeparator_false_iff x).mpr (fun h => he (by simp [h]))
    have hes : Separator ∉ es := fun h => he (by simp [h])
    have hbuf : a ++ Separator :: (es ++ [x] ++ b) = (a ++ Separator :: es) ++ x :: b := by simp
    have hget : (a ++ Separator :: (es ++ [x] ++ b)).getD (a.length + es.length + 1) ' ' = x := by
      have := getD_middle (a ++ Separator :: es) x b ' '
      rw [hbuf]
      simpa [Nat.add_assoc] using this
    have hlen : a.length + (es ++ [x]).length = (a.length + es.length) + 1 := by
      rw [List.length_append, List.length_singleton, Nat.add_assoc]
    have hlt : dotdot < a.length + es.length + 1 := by omega
    rw [hlen]
    unfold backtrack
    rw [hget, hx, if_pos ⟨hlt, rfl⟩]
    have := ih (x :: b) hes
    simpa using this

/-- Backtracking over a separator-free first element empties the buffer. -/
theorem backtrack_first (y : Char) (e b : List Char) (he : Separator ∉ e) :
    backtrack (y :: (e ++ b)) 0 e.length = 0 := by
  induction e using List.reverseRecOn generalizing b with
  | nil => rfl
  | append_singleton es x ih =>
    have hx : IsPathSeparator x = false :=
      (IsPathSeparator_false_iff x).mpr (fun h => he (by simp [h]))
    have hes : Separator ∉ es := fun h => he (by simp [h])
    have hget : (y :: (es ++ [x] ++ b)).getD (es.length + 1) ' ' = x := by
      have := getD_middle (y :: es) x b ' '
      simpa using this
    have hlen : (es ++ [x]).length = es.length + 1 := by
      rw [List.length_append, List.length_singleton]
    rw [hlen]
    unfold backtrack
    rw [hget, hx, if_pos ⟨Nat.succ_pos _, rfl⟩]
    have := ih (x :: b) hes
    simpa using this

theorem withSeparator_nil : withSeparator [] = [] := rfl

theorem withSeparator_of_ne_nil (out : List Char) (h : out ≠ []) :
    withSeparator out = out ++ [Separator] := by
  unfold withSeparator
  rw [if_neg h]

/-- The `..` case of `Clean`, when it can backtrack, removes the last element
from the buffer together with the separator in front of it. -/
theorem take_backtrack (a e : List Char) (dotdot : Nat) (he : Separator ∉ e) (hne : e ≠ [])
    (hdd : dotdot ≤ a.length) :
    (withSeparator a ++ e).take
      (backtrack (withSeparator a ++ e) dotdot ((withSeparator a ++ e).length - 1)) = a := by
  by_cases ha : a = []
  · subst ha
    have hd0 : dotdot = 0 := by simpa using hdd
    subst hd0
    cases e with
    | nil => exact absurd rfl hne
    | cons y es =>
      have hes : Separator ∉ es := fun h => he (by simp [h])
      have := backtrack_first y es [] hes
      rw [withSeparator_nil, List.nil_append]
      simp only [List.append_nil] at this
      simp only [List.length_cons, Nat.add_sub_cancel]
      rw [this]
      rfl
  · have hbuf : withSeparator a ++ e = a ++ Separator :: (e ++ []) := by
      rw [withSeparator_of_ne_nil a ha]
      simp
    have hlen : (a ++ Separator :: (e ++ [])).length - 1 = a.length + e.length := by
      simp
    rw [hbuf, hlen, backtrack_element a e [] dotdot he ha hdd]
    simp

end filepath

namespace filepath

theorem withSeparator_length_le (out : List Char) : out.length ≤ (withSeparator out).length := by
  unfold withSeparator
  split
  · exact le_refl _
  · simp

theorem plainElements_nil : plainElements [] := fun _ h => absurd h (List.not_mem_nil _)

theorem plainElements_append (p : List (List Char)) (e : List Char) (hp : plainElements p)
    (he : debug.plainSegment e = true) (hfree : Separator ∉ e) : plainElements (p ++ [e]) := by
  intro seg hseg
  rcases List.mem_append.mp hseg with h | h
  · exact hp seg h
  · rw [List.mem_singleton.mp h]
    exact ⟨he, hfree⟩

theorem plainElements_of_append (p : List (List Char)) (e : List Char)
    (hp : plainElements (p ++ [e])) :
    plainElements p ∧ debug.plainSegment e = true ∧ Separator ∉ e :=
  ⟨fun seg h => hp seg (List.mem_append_left _ h),
    (hp e (by simp)).1, (hp e (by simp)).2⟩

theorem plainSegment_ne_nil (e : List Char) (he : debug.plainSegment e = true) : e ≠ [] := by
  intro h
  rw [h] at he
  exact absurd he (by decide)

theorem formElements_ne_nil (k : Nat) (p : List (List Char)) (hp : plainElements p) :
    ∀ seg ∈ List.replicate k dotdot ++ p, seg ≠ [] := by
  intro seg hseg
  rcases List.mem_append.mp hseg with h | h
  · rw [(List.mem_replicate.mp h).2]
    exact List.cons_ne_nil _ _
  · exact plainSegment_ne_nil seg (hp seg h).1

theorem formElements_free (k : Nat) (p : List (List Char)) (hp : plainElements p) :
    ∀ seg ∈ List.replicate k dotdot ++ p, Separator ∉ seg := by
  intro seg hseg
  rcases List.mem_append.mp hseg with h | h
  · rw [(List.mem_replicate.mp h).2]
    decide
  · exact (hp seg h).2

theorem Join_snoc (l : List (List Char)) (e : List Char) (hl : ∀ seg ∈ l, seg ≠ []) :
    strings.Join (l ++ [e]) [Separator] = withSeparator (strings.Join l [Separator]) ++ e := by
  by_cases h : l = []
  · subst h
    rfl
  · have hne : strings.Join l [Separator] ≠ [] := fun hj => h (strings.Join_eq_nil l _ hl hj)
    rw [strings.Join_append_singleton l e _ h, withSeparator_of_ne_nil _ hne]

theorem cleanForm_snoc (k : Nat) (p : List (List Char)) (e : List Char)
    (hp : plainElements p) : cleanForm k (p ++ [e]) = withSeparator (cleanForm k p) ++ e := by
  unfold cleanForm
  rw [← List.append_assoc, Join_snoc _ e (formElements_ne_nil k p hp)]

theorem cleanForm_succ (k : Nat) :
    cleanForm (k + 1) [] = withSeparator (cleanForm k []) ++ dotdot := by
  unfold cleanForm
  rw [List.append_nil, List.append_nil, List.replicate_succ',
    Join_snoc _ dotdot (fun seg h => by
      rw [(List.mem_replicate.mp h).2]
      exact List.cons_ne_nil _ _)]

theorem cleanForm_length_le (k : Nat) (p : List (List Char)) (hp : plainElements p) :
    (cleanForm k []).length ≤ (cleanForm k p).length := by
  induction p using List.reverseRecOn with
  | nil => exact le_refl _
  | append_singleton ps e ih =>
    obtain ⟨hps, _, _⟩ := plainElements_of_append ps e hp
    have h1 := ih hps
    have h2 := withSeparator_length_le (cleanForm k ps)
    rw [cleanForm_snoc k ps e hps, List.length_append]
    omega

theorem cleanForm_length_lt (k : Nat) (p : List (List Char)) (hp : plainElements p)
    (hne : p ≠ []) : (cleanForm k []).length < (cleanForm k p).length := by
  rcases List.eq_nil_or_concat p with h | ⟨ps, e, h⟩
  · exact absurd h hne
  · rw [List.concat_eq_append] at h
    subst h
    obtain ⟨hps, he, _⟩ := plainElements_of_append ps e hp
    have h1 := cleanForm_length_le k ps hps
    have h2 := withSeparator_length_le (cleanForm k ps)
    have h3 : 0 < e.length := List.length_pos.mpr (plainSegment_ne_nil e he)
    rw [cleanForm_snoc k ps e hps, List.length_append]
    omega

theorem head_of_boundary (rest : List Char) (h : rest = [] ∨ ∃ t, rest = Separator :: t) :
    rest = [] ∨ (rest.head?.map IsPathSeparator) = some true := by
  rcases h with h | ⟨t, h⟩
  · exact Or.inl h
  · subst h
    exact Or.inr rfl

/-- The element copied by the default case of `Clean` is plain. -/
theorem plainSegment_of_default (c : Char) (rest es rest2 : List Char)
    (hsplit : c :: rest = (c :: es) ++ rest2)
    (hbound : rest2 = [] ∨ ∃ t, rest2 = Separator :: t)
    (h2 : ¬ (c = '.' ∧ (rest = [] ∨ (rest.head?.map IsPathSeparator) = some true)))
    (h3 : ¬ (c = '.' ∧ rest.head? = some '.' ∧
      (rest.tail = [] ∨ (rest.tail.head?.map IsPathSeparator) = some true))) :
    debug.plainSegment (c :: es) = true := by
  have hrest : rest = es ++ rest2 := (List.cons.inj hsplit).2
  simp only [debug.plainSegment, Bool.and_eq_true, bne_iff_ne, ne_eq]
  refine ⟨⟨List.cons_ne_nil _ _, fun h => ?_⟩, fun h => ?_⟩
  · obtain ⟨hc, hes⟩ := List.cons.inj h
    rw [hes, List.nil_append] at hrest
    exact h2 ⟨hc, by rw [hrest]; exact head_of_boundary rest2 hbound⟩
  · obtain ⟨hc, hes⟩ := List.cons.inj h
    rw [hes] at hrest
    refine h3 ⟨hc, by rw [hrest]; rfl, ?_⟩
    rw [hrest]
    exact head_of_boundary rest2 hbound

/-- The loop of `Clean` on a path that is not rooted keeps the buffer a cleaned
path: some elements `..`, up to the index `dotdot`, followed by plain
elements. -/
theorem cleanLoop_cleanForm (fuel : Nat) (path : List Char) (k : Nat) (p : List (List Char))
    (hp : plainElements p) :
    ∃ k2 p2, plainElements p2 ∧
      cleanLoop false fuel path (cleanForm k p) (cleanForm k []).length = cleanForm k2 p2 := by
  induction fuel generalizing path k p with
  | zero => exact ⟨k, p, hp, rfl⟩
  | succ fuel ih =>
    cases path with
    | nil => exact ⟨k, p, hp, cleanLoop_nil _ _ _ _⟩
    | cons c rest =>
      rw [cleanLoop_false_step]
      by_cases h1 : IsPathSeparator c = true
      · rw [if_pos h1]
        exact ih rest k p hp
      · have hc : IsPathSeparator c = false := by
          cases hs : IsPathSeparator c with
          | false => rfl
          | true => exact absurd hs h1
        rw [if_neg h1]
        by_cases h2 : c = '.' ∧ (rest = [] ∨ (rest.head?.map IsPathSeparator) = some true)
        · rw [if_pos h2]
          exact ih rest k p hp
        · rw [if_neg h2]
          by_cases h3 : c = '.' ∧ rest.head? = some '.' ∧
              (rest.tail = [] ∨ (rest.tail.head?.map IsPathSeparator) = some true)
          · rw [if_pos h3]
            by_cases h4 : (cleanForm k []).length < (cleanForm k p).length
            · rw [if_pos h4]
              rcases List.eq_nil_or_concat p with hnil | ⟨ps, e, hpe⟩
              · rw [hnil] at h4
                exact absurd h4 (Nat.lt_irrefl _)
              · rw [List.concat_eq_append] at hpe
                subst hpe
                obtain ⟨hps, he, hfree⟩ := plainElements_of_append ps e hp
                rw [cleanForm_snoc k ps e hps,
                  take_backtrack (cleanForm k ps) e _ hfree (plainSegment_ne_nil e he)
                    (cleanForm_length_le k ps hps)]
                exact ih rest.tail k ps hps
            · rw [if_neg h4]
              have hnil : p = [] := by
                by_contra hne
                exact h4 (cleanForm_length_lt k p hp hne)
              subst hnil
              have hform : withSeparator (cleanForm k []) ++ ['.', '.'] = cleanForm (k + 1) [] :=
                (cleanForm_succ k).symm
              rw [hform]
              exact ih rest.tail (k + 1) [] plainElements_nil
          · rw [if_neg h3]
            obtain ⟨e, rest2, hsplit, hcopy, hfree, hbound, hhead⟩ :=
              copyElement_spec (c :: rest) (withSeparator (cleanForm k p))
            obtain ⟨es, hes⟩ := hhead c rest rfl hc
            subst hes
            have hplain := plainSegment_of_default c rest es rest2 hsplit hbound h2 h3
            rw [hcopy, ← cleanForm_snoc k p (c :: es) hp]
            exact ih rest2 k (p ++ [c :: es]) (plainElements_append p _ hp hplain hfree)

end filepath

namespace filepath

theorem cleanForm_zero (p : List (List Char)) : cleanForm 0 p = strings.Join p [Separator] := rfl

theorem cleanForm_succ_cons (k : Nat) (p : List (List Char)) :
    cleanForm (k + 1) p = strings.Join (dotdot :: (List.replicate k dotdot ++ p)) [Separator] :=
  rfl

/-- On a cleaned path the loop of `Clean`, started where it cannot backtrack,
appends the path to the buffer, behind a separator when the buffer is not
empty. -/
theorem cleanLoop_dotdots (k : Nat) (p : List (List Char)) (hp : plainElements p)
    (hne : List.replicate k dotdot ++ p ≠ []) (fuel : Nat) (out : List Char)
    (hfuel : (cleanForm k p).length ≤ fuel) :
    cleanLoop false fuel (cleanForm k p) out out.length = withSeparator out ++ cleanForm k p := by
  induction k generalizing fuel out with
  | zero =>
    have hpne : p ≠ [] := by simpa using hne
    rw [cleanForm_zero] at hfuel ⊢
    exact cleanLoop_plain p hpne (fun seg h => (hp seg h).1) (fun seg h => (hp seg h).2)
      fuel out out.length hfuel
  | succ k ih =>
    have hdot : IsPathSeparator '.' = false := by decide
    by_cases hr : List.replicate k dotdot ++ p = []
    · have hform : cleanForm (k + 1) p = ['.', '.'] := by
        rw [cleanForm_succ_cons, hr]
        rfl
      rw [hform] at hfuel ⊢
      obtain ⟨f, rfl⟩ : ∃ f, fuel = f + 1 := ⟨fuel - 1, by simp at hfuel; omega⟩
      rw [cleanLoop_false_step, hdot, if_neg Bool.false_ne_true, if_neg (by decide),
        if_pos (by decide), if_neg (Nat.lt_irrefl _)]
      exact cleanLoop_nil _ _ _ _
    · have hform : cleanForm (k + 1) p = '.' :: '.' :: Separator :: cleanForm k p := by
        rw [cleanForm_succ_cons, strings.Join_cons _ _ _ hr]
        rfl
      rw [hform] at hfuel ⊢
      simp only [List.length_cons] at hfuel
      obtain ⟨f, rfl⟩ : ∃ f, fuel = f + 1 + 1 := ⟨fuel - 2, by omega⟩
      have h2 : ¬ ('.' = '.' ∧ ('.' :: Separator :: cleanForm k p = [] ∨
          (('.' :: Separator :: cleanForm k p).head?.map IsPathSeparator) = some true)) := by
        rintro ⟨_, h | h⟩
        · exact List.noConfusion h
        · have hfalse : (('.' :: Separator :: cleanForm k p).head?.map IsPathSeparator) =
              some false := rfl
          rw [hfalse] at h
          exact absurd h (by decide)
      have h3 : '.' = '.' ∧ ('.' :: Separator :: cleanForm k p).head? = some '.' ∧
          (('.' :: Separator :: cleanForm k p).tail = [] ∨
            (('.' :: Separator :: cleanForm k p).tail.head?.map IsPathSeparator) = some true) :=
        ⟨rfl, rfl, Or.inr rfl⟩
      rw [cleanLoop_false_step, hdot, if_neg Bool.false_ne_true, if_neg h2, if_pos h3,
        if_neg (Nat.lt_irrefl _)]
      have hsep : IsPathSeparator Separator = true := by decide
      rw [List.tail_cons, cleanLoop_false_step, if_pos hsep,
        ih hr f (withSeparator out ++ ['.', '.']) (by omega),
        withSeparator_of_ne_nil (withSeparator out ++ ['.', '.']) (by simp)]
      simp

theorem cleanForm_head (k : Nat) (p : List (List Char)) (hp : plainElements p)
    (hne : List.replicate k dotdot ++ p ≠ []) :
    ∃ c t, cleanForm k p = c :: t ∧ IsPathSeparator c = false := by
  cases hl : List.replicate k dotdot ++ p with
  | nil => exact absurd hl hne
  | cons e es =>
    have hmem : e ∈ List.replicate k dotdot ++ p := by rw [hl]; simp
    have hene := formElements_ne_nil k p hp e hmem
    have hfree := formElements_free k p hp e hmem
    cases he : e with
    | nil => exact absurd he hene
    | cons c cs =>
      obtain ⟨t, ht⟩ := Join_head e es c cs he
      refine ⟨c, t, ?_, (IsPathSeparator_false_iff c).mpr (fun h => hfree ?_)⟩
      · unfold cleanForm
        rw [hl]
        exact ht
      · rw [he, h]
        simp

/-- The function `Clean` leaves a cleaned path as it is. -/
theorem Clean_cleanForm (k : Nat) (p : List (List Char)) (hp : plainElements p)
    (hne : List.replicate k dotdot ++ p ≠ []) : Clean (cleanForm k p) = cleanForm k p := by
  obtain ⟨c, t, hct, hc⟩ := cleanForm_head k p hp hne
  have hloop := cleanLoop_dotdots k p hp hne (cleanForm k p).length [] (le_refl _)
  rw [hct] at hloop ⊢
  simp only [Clean, hc, Bool.false_eq_true, if_false]
  have h0 : ([] : List Char).length = 0 := rfl
  rw [h0] at hloop
  rw [hloop]
  simp [withSeparator]

/-- The result of `Clean` on a path that does not start with a separator is `.`
or a cleaned path. -/
theorem Clean_shape (c : Char) (rest : List Char) (hc : IsPathSeparator c = false) :
    Clean (c :: rest) = ['.'] ∨
    ∃ k p, plainElements p ∧ List.replicate k dotdot ++ p ≠ [] ∧
      Clean (c :: rest) = cleanForm k p := by
  obtain ⟨k, p, hp, hloop⟩ :=
    cleanLoop_cleanForm (c :: rest).length (c :: rest) 0 [] plainElements_nil
  have hloop2 : cleanLoop false (c :: rest).length (c :: rest) [] 0 = cleanForm k p := hloop
  simp only [Clean, hc, Bool.false_eq_true, if_false]
  rw [hloop2]
  by_cases hout : (cleanForm k p).length = 0
  · rw [if_pos hout]
    exact Or.inl rfl
  · rw [if_neg hout]
    refine Or.inr ⟨k, p, hp, fun hnil => hout ?_, rfl⟩
    unfold cleanForm
    rw [hnil]
    rfl

/-- Splitting a cleaned path and joining the pieces with `Join` gives it back. -/
theorem Join_Split_cleanForm (k : Nat) (p : List (List Char)) (hp : plainElements p)
    (hne : List.replicate k dotdot ++ p ≠ []) :
    Join (strings.Split (cleanForm k p) Separator) = cleanForm k p := by
  have hsplit : strings.Split (cleanForm k p) Separator = List.replicate k dotdot ++ p :=
    strings.Split_Join Separator _ hne (formElements_free k p hp)
  rw [hsplit]
  cases hl : List.replicate k dotdot ++ p with
  | nil => exact absurd hl hne
  | cons e es =>
    have hene : e ≠ [] := formElements_ne_nil k p hp e (by rw [hl]; simp)
    have hclean := Clean_cleanForm k p hp hne
    unfold cleanForm at hclean
    rw [hl] at hclean
    unfold Join
    rw [if_pos hene]
    unfold cleanForm
    rw [hl]
    exact hclean

/-- The result of `Join` is the empty string, `.` or a cleaned path. -/
theorem Join_shape (segs : List (List Char)) (hfree : ∀ seg ∈ segs, Separator ∉ seg) :
    Join segs = [] ∨ Join segs = ['.'] ∨
    ∃ k p, plainElements p ∧ List.replicate k dotdot ++ p ≠ [] ∧ Join segs = cleanForm k p := by
  induction segs with
  | nil => exact Or.inl rfl
  | cons e es ih =>
    unfold Join
    by_cases he : e ≠ []
    · rw [if_pos he]
      cases hce : e with
      | nil => exact absurd hce he
      | cons c cs =>
        have hfe : Separator ∉ e := hfree e (by simp)
        have hc : IsPathSeparator c = false :=
          (IsPathSeparator_false_iff c).mpr (fun h => hfe (by rw [hce, h]; simp))
        obtain ⟨t, ht⟩ := Join_head e es c cs hce
        rw [← hce, ht]
        exact Or.inr (Clean_shape c t hc)
    · rw [if_neg he]
      exact ih (fun seg hs => hfree seg (by simp [hs]))

/-- Splitting a result of `Join` and joining the pieces with `Join` again gives the
same path. -/
theorem Join_Split_Join (segs : List (List Char)) (hfree : ∀ seg ∈ segs, Separator ∉ seg) :
    Join (strings.Split (Join segs) Separator) = Join segs := by
  rcases Join_shape segs hfree with h | h | ⟨k, p, hp, hne, h⟩
  · rw [h]
    rfl
  · rw [h]
    rfl
  · rw [h]
    exact Join_Split_cleanForm k p hp hne

end filepath

namespace debug

/-- C16: for every path and every integer `n`, trimming a trimmed path again
changes nothing: `limitPath (limitPath path n) n = limitPath path n`. -/
theorem limitPath_idempotent (path : String) (n : Int) :
    limitPath (limitPath path n) n = limitPath path n := by
  by_cases hn : n ≤ 0
  · simp only [limitPath, if_pos hn]
  · have hpos : 0 < n := not_le.mp hn
    have hle := segments_limitPath_le path n hpos
    have h0 : (segments (limitPath path n)).length - n.toNat = 0 := by omega
    have hall : trailingSegments (limitPath path n) n = segments (limitPath path n) := by
      simp only [trailingSegments, h0, List.drop_zero]
    rw [limitPath_of_pos (limitPath path n) n hpos, hall]
    rw [limitPath_of_pos path n hpos]
    simp only [segments]
    rw [filepath.Join_Split_Join _ (trailingSegments_free path n)]

end debug
